import Mathlib

/-
Verification of the core model pipeline of the ASC LA Peer Groups repository
(`src/model.py`): feature transformation, normalisation, Gaussian selection,
override handling, pairwise distance construction and peer ranking.

Modelling conventions.
A pandas DataFrame of this pipeline is a pair of the LA key columns (string
valued: the LA code and LA name) and the numeric columns, each a named list of
rationals, in pandas column order.  Machine floats are modelled by `ℚ`; the
library transforms whose values are irrational (`scipy.stats.yeojohnson`,
`boxcox`, `x ** 0.5`, `np.log1p`, `x ** -0.5`) and the Shapiro-Wilk p-value
are taken as parameters (fields of `NumOps`, and a `pval` argument), because
no claim below depends on the numeric values they return, only on which
columns exist, which column is selected, and how results are ordered.
Fallible pandas/sklearn/scipy operations (KeyError on a missing column, the
MinMaxScaler feature_range check, the `boxcox` rejection of constant data,
DataFrame construction with a mismatched column count) return `Option`.
-/

namespace PeerGroups

/-- A pipeline dataframe: the LA key columns (values are strings, e.g. codes
and names) followed by the numeric columns, each a named column of rationals,
in pandas column order. -/
structure Df where
  keys : List (String × List String)
  cols : List (String × List ℚ)
deriving DecidableEq, Repr

/-- Look a numeric column up by name: `df[name]`, first match (pandas column
names are unique in this pipeline). `none` models the KeyError on a missing
column. -/
def lookupCol : List (String × List ℚ) → String → Option (List ℚ)
  | [], _ => none
  | c :: t, name => if c.1 = name then some c.2 else lookupCol t name

/-- Pandas column assignment `df[name] = vals`: overwrite the column in place
when it exists, otherwise append it at the end of the column order. -/
def setCol : List (String × List ℚ) → String → List ℚ → List (String × List ℚ)
  | [], name, vals => [(name, vals)]
  | c :: t, name, vals => if c.1 = name then (name, vals) :: t else c :: setCol t name vals

/-- Minimum of a column, `none` on an empty column (numpy/pandas produce NaN
or raise there). -/
def colMin : List ℚ → Option ℚ
  | [] => none
  | x :: t => some (t.foldl min x)

/-- Maximum of a column, `none` on an empty column. -/
def colMax : List ℚ → Option ℚ
  | [] => none
  | x :: t => some (t.foldl max x)

/-- `sklearn.preprocessing.MinMaxScaler(feature_range=(0, w)).fit_transform`
on one column: scale = w / data_range (a zero data_range is replaced by 1,
`_handle_zeros_in_scale`), output x * scale + (0 - min * scale).
Fails (`ValueError`) when `0 >= w` (the feature_range check) or when the
column is empty (fit rejects 0 samples). -/
def minMaxScale (vals : List ℚ) (w : ℚ) : Option (List ℚ) :=
  if 0 < w then
    match colMin vals, colMax vals with
    | some mn, some mx =>
        let range := if mx - mn = 0 then 1 else mx - mn
        some (vals.map fun x => (x - mn) * (w / range))
    | _, _ => none
  else none

/-- `_normalise_var` (model.py:156-185): rescale every non-key column of the
dataframe into `[0, weight]` with a fresh MinMaxScaler per column.  Pandas
column assignment overwrites each column of the argument in place; the
returned dataframe is the final state of the object passed in. -/
def normalise_var (df : Df) (weight : ℚ) (key_columns : List String) : Option Df :=
  (df.cols.mapM fun c =>
    if c.1 ∈ key_columns then some c
    else (minMaxScale c.2 weight).map fun v => (c.1, v)).map
    fun cols => { df with cols := cols }

/-- The float-valued library transforms used by `_transform_var`, as opaque
column-to-column maps: `scipy.stats.yeojohnson` (its first component),
`x ** 0.5`, `np.log1p`, `scipy.stats.boxcox` (first component), `x ** -0.5`.
Their numeric values play no role in any claim. -/
structure NumOps where
  yeojohnson : List ℚ → List ℚ
  sqrtCol : List ℚ → List ℚ
  log1p : List ℚ → List ℚ
  boxcox : List ℚ → List ℚ
  recipSqrt : List ℚ → List ℚ

/-- The `greater_than_zero` check of `_transform_var` (model.py:212-215):
the column minimum is strictly positive.  Pandas `min()` of an empty column
is NaN and `NaN > 0` is False, hence the empty case is `false`. -/
def gtzOf (vals : List ℚ) : Bool :=
  match colMin vals with
  | some mn => decide (0 < mn)
  | none => false

/-- scipy's constancy check `np.all(x == x[0])`: `scipy.stats.boxcox` raises
`ValueError("Data must not be constant.")` on a column every value of which
equals its first value. -/
def isConst (vals : List ℚ) : Bool :=
  vals.all fun x => decide (x = vals.headD 0)

/-- `_transform_var` (model.py:188-227): flag `greater_than_zero` when the
column minimum is strictly positive, then assign the variant columns `_yj`,
`_sqrr`, `_log`, `_squared` and, when the flag holds, `_bc`, `_recip_sqrr`,
`_recip`.  Each assignment mutates the argument dataframe; the returned
dataframe is the final state of the object passed in.  The gated branch first
calls `scipy.stats.boxcox` (model.py:223), which raises
`ValueError("Data must not be constant.")` when the (strictly positive)
column is constant — modelled as `none`. -/
def transform_var (ops : NumOps) (df : Df) (feature : String) : Option (Df × Bool) :=
  let vals := (lookupCol df.cols feature).getD []
  let gtz : Bool := gtzOf vals
  let cols := setCol df.cols (feature ++ "_yj") (ops.yeojohnson vals)
  let cols := setCol cols (feature ++ "_sqrr") (ops.sqrtCol vals)
  let cols := setCol cols (feature ++ "_log") (ops.log1p vals)
  let cols := setCol cols (feature ++ "_squared") (vals.map fun x => x ^ 2)
  if gtz then
    if isConst vals then none
    else
      let cols := setCol cols (feature ++ "_bc") (ops.boxcox vals)
      let cols := setCol cols (feature ++ "_recip_sqrr") (ops.recipSqrt vals)
      some ({ df with cols := setCol cols (feature ++ "_recip") (vals.map fun x => 1 / x) },
        gtz)
  else some ({ df with cols := cols }, gtz)

/-- Python `max(d, key=d.get)` over an association list in insertion order:
fold keeping the current entry unless a later entry is strictly greater, so
the first entry attaining the maximum wins. -/
def pyMaxFst : (String × ℚ) → List (String × ℚ) → (String × ℚ)
  | acc, [] => acc
  | acc, x :: t => pyMaxFst (if acc.2 < x.2 then x else acc) t

/-- `_get_best_gaussian_transformation` (model.py:122-153): Shapiro-Wilk
p-value (the `pval` parameter) per non-key column in column order, pick the
first column attaining the maximal p-value (Python `max` over the dict), and
assign a copy of it as `<feature>_best` on the argument dataframe.  `none`
models the `ValueError` of `max` on an empty candidate set. -/
def get_best_gaussian_transformation (pval : List ℚ → ℚ) (df : Df) (feature : String)
    (key_columns : List String) : Option Df :=
  let cands := df.cols.filter fun c => decide (c.1 ∉ key_columns)
  match cands.map fun c => (c.1, pval c.2) with
  | [] => none
  | p :: ps =>
    match lookupCol df.cols (pyMaxFst p ps).1 with
    | none => none
    | some vals => some { df with cols := setCol df.cols (feature ++ "_best") vals }

/-- `df[la_keys + [name]]` for the selections this pipeline performs: all key
columns plus one numeric column.  `none` models the KeyError when the named
numeric column is absent. -/
def selectKeysAnd (df : Df) (name : String) : Option Df :=
  match lookupCol df.cols name with
  | none => none
  | some vals => some { keys := df.keys, cols := [(name, vals)] }

/-- `transformed_output.merge(column_to_use, on=la_keys, how="inner")`,
modelled for the aligned situation the pipeline is always in: every
intermediate dataframe carries identical key columns in identical row order
(all derive from `df_all` without reordering), so the inner join appends the
right side's numeric columns.  `none` when the key columns disagree. -/
def mergeOnKeys (left right : Df) : Option Df :=
  if left.keys = right.keys then some { keys := left.keys, cols := left.cols ++ right.cols }
  else none

/-- The per-feature override lookup `custom_transformation[feature]`. -/
def customLookup (ct : List (String × String)) (feature : String) : Option String :=
  (ct.find? fun p => decide (p.1 = feature)).map (·.2)

/-- The column name `transform_data` selects for a feature (model.py:99-107):
`f"{feature}_{code}"` under an override, else `f"{feature}_best"`. -/
def chosenColumnName (customT : Option (List (String × String))) (feature : String) : String :=
  match customT with
  | some ct =>
    match customLookup ct feature with
    | some code => feature ++ "_" ++ code
    | none => feature ++ "_best"
  | none => feature ++ "_best"

/-- One iteration of the `transform_data` feature loop for a feature with
weight > 0 (model.py:72-114): slice `df_all[la_keys + [feature]]`, transform,
optionally normalise, select the best Gaussian candidate, pick the override
or `_best` column, and inner-merge it onto the accumulated output. -/
def processFeature (ops : NumOps) (pval : List ℚ → ℚ) (la_keys : List String) (dfAll acc : Df)
    (feature : String) (weight : ℚ) (normalise : Bool)
    (customT : Option (List (String × String))) : Option Df :=
  (selectKeysAnd dfAll feature).bind fun dfVar =>
    (transform_var ops dfVar feature).bind fun tv =>
      ((if normalise then normalise_var tv.1 weight la_keys else some tv.1).bind fun td =>
        (get_best_gaussian_transformation pval td feature la_keys).bind fun td2 =>
          (selectKeysAnd td2 (chosenColumnName customT feature)).bind fun columnToUse =>
            mergeOnKeys acc columnToUse)

/-- The feature loop of `transform_data` (model.py:68-114): start from
`df_all[la_keys]` (keys only), process each feature with weight > 0 in
configuration order, skip features with weight ≤ 0. -/
def transformStage (ops : NumOps) (pval : List ℚ → ℚ) (la_keys : List String) (dfAll : Df)
    (features : List (String × ℚ)) (normalise : Bool)
    (customT : Option (List (String × String))) : Option Df :=
  features.foldl
    (fun acc (fw : String × ℚ) =>
      match acc with
      | none => none
      | some out =>
        if 0 < fw.2 then processFeature ops pval la_keys dfAll out fw.1 fw.2 normalise customT
        else some out)
    (some { keys := dfAll.keys, cols := [] })

/-- Entry `i j` of `scipy.spatial.distance.squareform(pdist(X, metric))`:
zero on the diagonal; off the diagonal the metric value of the unordered row
pair, computed once by pdist (for the row pair in increasing index order) and
mirrored into both triangles by squareform. -/
def squareformPdist (metric : List ℚ → List ℚ → ℚ) (vecs : List (List ℚ)) (i j : Nat) : ℚ :=
  if i = j then 0 else metric (vecs.getD (min i j) []) (vecs.getD (max i j) [])

/-- The full distance matrix as a list of rows, as built at model.py:310-315
(indexed and labelled by the LA names). -/
def distMatrixList (metric : List ℚ → List ℚ → ℚ) (vecs : List (List ℚ)) : List (List ℚ) :=
  (List.range vecs.length).map fun i =>
    (List.range vecs.length).map fun j => squareformPdist metric vecs i j

/-- Entry `(i, j)` of a matrix stored as a list of rows. -/
def entry (m : List (List ℚ)) (i j : Nat) : ℚ :=
  (m.getD i []).getD j 0

/-- `dist_matrix_df.stack()` (model.py:257-260): the long-form rows
`(index label, column label, value)` in row-major order. -/
def stackRows (names : List String) (m : List (List ℚ)) : List (String × String × ℚ) :=
  (List.range names.length).flatMap fun i =>
    (List.range names.length).map fun j => (names.getD i "", names.getD j "", entry m i j)

/-- Strict insertion order used to model a pandas ascending sort: insert each
element before the first strictly greater one, so equal keys keep their
original relative order (pandas keeps ties stable here: `nsmallest` uses
keep='first' and multi-key `sort_values` uses lexsort). -/
def insertByLt (lt : α → α → Bool) (p : α) : List α → List α
  | [] => [p]
  | q :: t => if lt p q then p :: q :: t else q :: insertByLt lt p t

/-- Stable ascending sort by the strict comparison `lt`: fold the input in
order, inserting each element after existing equal keys. -/
def sortByLt (lt : α → α → Bool) (l : List α) : List α :=
  l.foldl (fun acc p => insertByLt lt p acc) []

/-- The sort key of `sort_values(by=[f"{la_name}_1", "distance"])`: strictly
smaller first LA name, or equal first name and strictly smaller distance. -/
def rowLt (a b : String × String × ℚ) : Bool :=
  decide (a.1 < b.1) || (decide (a.1 = b.1) && decide (a.2.2 < b.2.2))

/-- `create_pairwise_distance_df` (model.py:230-270): stack the square matrix
into (LA_1, LA_2, distance) rows, drop the rows whose two labels coincide
(`!=` on the label values), and sort by LA_1 then distance, ascending. -/
def create_pairwise_distance_df (names : List String) (m : List (List ℚ)) :
    List (String × String × ℚ) :=
  let reshaped := stackRows names m
  let filtered := reshaped.filter fun r => decide (r.1 ≠ r.2.1)
  sortByLt rowLt filtered

/-- One column of the distance matrix with row indices attached:
the values `dist_matrix[column j]` over rows `0..n-1`. -/
def pairsCol (m : List (List ℚ)) (j : Nat) : List (Nat × ℚ) :=
  (List.range m.length).map fun i => (i, entry m i j)

/-- Comparison on (row index, distance) pairs by distance only, the key of
`nsmallest(k+1, columns=column)`. -/
def valLt (p q : Nat × ℚ) : Bool :=
  decide (p.2 < q.2)

/-- The peer row built for column `j` of the distance matrix
(model.py:325-330): `nsmallest(k+1, column)` (rows stably sorted ascending by
that column, first `k+1` kept), take the index labels from position 1 on, and
prepend the column's own label. -/
def peerRow (names : List String) (m : List (List ℚ)) (k j : Nat) : List String :=
  let ranked := sortByLt valLt (pairsCol m j)
  names.getD j "" :: ((ranked.take (k + 1)).drop 1).map fun p => names.getD p.1 ""

/-- The peer table of `calculate_distance` (model.py:324-335): one peer row
per matrix column, assembled into a DataFrame with columns
`[la_name] + [1..k]`.  `none` models the ValueError pandas raises when the
rows do not have exactly `k + 1` entries (the case `k + 1 > n`); an empty row
list is accepted (pandas builds an empty frame without checking). -/
def peersTable (names : List String) (m : List (List ℚ)) (k : Nat) :
    Option (List (List String)) :=
  let rows := (List.range names.length).map (peerRow names m k)
  if rows.all fun r => decide (r.length = k + 1) then some rows else none

/-- The names column `df[la_name]` used to index the distance matrix. -/
def laNames (df : Df) (la_name : String) : List String :=
  ((df.keys.find? fun c => decide (c.1 = la_name)).map (·.2)).getD []

/-- The per-LA feature vector of row `i`: all numeric columns of the assembled
table at that row (`df.drop(columns=[la_code, la_name])`, model.py:310). -/
def rowVec (df : Df) (i : Nat) : List ℚ :=
  df.cols.map fun c => c.2.getD i 0

/-- The whole run, observed through its output files: `transform_data`
(writes `features.csv` after the feature loop, model.py:116-117) followed by
`calculate_distance` (writes `distances.csv`, model.py:319-320, then builds
the peer table and writes `peers.csv` and `example_peers.csv`,
model.py:341-343).  Returns the list of output files written, in order, and
whether the run completed; a failed stage aborts the run at that point. -/
def runPipeline (ops : NumOps) (pval : List ℚ → ℚ) (metric : List ℚ → List ℚ → ℚ)
    (la_keys : List String) (la_name : String) (dfAll : Df) (features : List (String × ℚ))
    (normalise : Bool) (customT : Option (List (String × String))) (k : Nat) :
    List String × Bool :=
  match transformStage ops pval la_keys dfAll features normalise customT with
  | none => ([], false)
  | some out =>
    let names := laNames out la_name
    let m := distMatrixList metric ((List.range names.length).map (rowVec out))
    match peersTable names m k with
    | none => (["features.csv", "distances.csv"], false)
    | some _ => (["features.csv", "distances.csv", "peers.csv", "example_peers.csv"], true)

/-- The square of the euclidean metric of `pdist` (the exact euclidean value
is the irrational square root of this); a computable stand-in metric used by
concrete witnesses, where only symmetry of the construction matters. -/
def euclidSq (x y : List ℚ) : ℚ :=
  ((x.zip y).map fun p => (p.1 - p.2) ^ 2).sum

/-- A concrete `NumOps` instance for witnesses: every opaque library
transform is the identity on the column. -/
def idOps : NumOps :=
  ⟨fun l => l, fun l => l, fun l => l, fun l => l, fun l => l⟩

/-- The claim's formula for one column: minimum to 0, maximum to `w`, via
`(x - min) / (max - min) * w`, and a constant column entirely to 0. -/
def claimScale (vals : List ℚ) (w : ℚ) : List ℚ :=
  vals.map fun x =>
    if (colMax vals).getD 0 = (colMin vals).getD 0 then 0
    else (x - (colMin vals).getD 0) / ((colMax vals).getD 0 - (colMin vals).getD 0) * w

/-- The column assignments `_transform_var` performs, in source order. -/
def varAdds (ops : NumOps) (feature : String) (vals : List ℚ) (gtz : Bool) :
    List (String × List ℚ) :=
  [(feature ++ "_yj", ops.yeojohnson vals), (feature ++ "_sqrr", ops.sqrtCol vals),
   (feature ++ "_log", ops.log1p vals), (feature ++ "_squared", vals.map fun x => x ^ 2)] ++
  (if gtz then
    [(feature ++ "_bc", ops.boxcox vals), (feature ++ "_recip_sqrr", ops.recipSqrt vals),
     (feature ++ "_recip", vals.map fun x => 1 / x)]
   else [])

/-- The variant suffixes `_transform_var` may write. -/
def varSuffixes : List String :=
  ["_yj", "_sqrr", "_log", "_squared", "_bc", "_recip_sqrr", "_recip"]

/-- The lexicographic strict order (distance, then original row index) that a
stable ascending sort establishes on a column whose indices arrive in
increasing order. -/
def pairLex (p q : Nat × ℚ) : Prop :=
  p.2 < q.2 ∨ (p.2 = q.2 ∧ p.1 < q.1)

/-- The sortedness relation established by
`sort_values(by=[f"{la_name}_1", "distance"])`: first LA name ascending,
then distance ascending. -/
def rowLe (a b : String × String × ℚ) : Prop :=
  a.1 < b.1 ∨ (a.1 = b.1 ∧ a.2.2 ≤ b.2.2)

/-! ### Helper lemmas: strings and column lists -/

theorem string_append_right_inj (f : String) {s t : String} (h : f ++ s = f ++ t) : s = t := by
  have h2 := congrArg String.data h
  simp only [String.data_append] at h2
  exact String.ext (List.append_cancel_left h2)

theorem append_ne_of_ne (f : String) {s t : String} (h : s ≠ t) : f ++ s ≠ f ++ t :=
  fun hc => h (string_append_right_inj f hc)

theorem append_ne_self (f : String) {s : String} (h : s ≠ "") : f ++ s ≠ f := by
  intro hc
  apply h
  have h2 := congrArg String.data hc
  simp only [String.data_append] at h2
  have h3 : f.data ++ s.data = f.data ++ [] := by simpa using h2
  exact String.ext (List.append_cancel_left h3)

theorem mem_append_map_iff (f a : String) (ss : List String) :
    f ++ a ∈ ss.map (fun s => f ++ s) ↔ a ∈ ss := by
  constructor
  · intro h
    obtain ⟨b, hb, hfb⟩ := List.mem_map.mp h
    exact string_append_right_inj f hfb.symm ▸ hb
  · intro h
    exact List.mem_map.mpr ⟨a, h, rfl⟩

theorem nodup_append_map (f : String) (ss : List String) (h : ss.Nodup) :
    (ss.map (fun s => f ++ s)).Nodup :=
  h.map fun _ _ hc => string_append_right_inj f hc

theorem lookupCol_of_head (c : String × List ℚ) (t : List (String × List ℚ)) :
    lookupCol (c :: t) c.1 = some c.2 := by
  simp [lookupCol]

theorem lookupCol_eq_none (cols : List (String × List ℚ)) (name : String)
    (h : name ∉ cols.map Prod.fst) : lookupCol cols name = none := by
  induction cols with
  | nil => rfl
  | cons c t ih =>
    simp only [List.map_cons, List.mem_cons] at h
    push_neg at h
    simp [lookupCol, Ne.symm h.1, ih h.2]

theorem lookupCol_mem_of_nodup {cols : List (String × List ℚ)} {c : String × List ℚ}
    (hnd : (cols.map Prod.fst).Nodup) (hc : c ∈ cols) : lookupCol cols c.1 = some c.2 := by
  induction cols with
  | nil => cases hc
  | cons d t ih =>
    simp only [List.map_cons, List.nodup_cons] at hnd
    rcases List.mem_cons.mp hc with h | h
    · subst h; exact lookupCol_of_head c t
    · have hne : d.1 ≠ c.1 := by
        intro he
        exact hnd.1 (he ▸ List.mem_map.mpr ⟨c, h, rfl⟩)
      simp [lookupCol, hne, ih hnd.2 h]

theorem setCol_of_not_mem (cols : List (String × List ℚ)) (name : String) (vals : List ℚ)
    (h : name ∉ cols.map Prod.fst) : setCol cols name vals = cols ++ [(name, vals)] := by
  induction cols with
  | nil => rfl
  | cons c t ih =>
    simp only [List.map_cons, List.mem_cons] at h
    push_neg at h
    simp [setCol, Ne.symm h.1, ih h.2]

theorem lookupCol_setCol_ne (cols : List (String × List ℚ)) (name name' : String)
    (vals : List ℚ) (h : name' ≠ name) :
    lookupCol (setCol cols name vals) name' = lookupCol cols name' := by
  induction cols with
  | nil => simp [setCol, lookupCol, Ne.symm h]
  | cons c t ih =>
    by_cases hc : c.1 = name
    · have hcn : ¬ c.1 = name' := by rw [hc]; exact Ne.symm h
      simp [setCol, if_pos hc, lookupCol, Ne.symm h, hcn]
    · simp only [setCol, if_neg hc]
      by_cases hcn : c.1 = name'
      · simp [lookupCol, hcn]
      · simp [lookupCol, hcn, ih]

/-! ### Helper lemmas: column minimum and maximum -/

theorem foldl_min_le (t : List ℚ) : ∀ (v : ℚ), ∀ x ∈ v :: t, t.foldl min v ≤ x := by
  induction t with
  | nil => intro v x hx; simp at hx; simp [hx]
  | cons a t ih =>
    intro v x hx
    rcases List.mem_cons.mp hx with h | h
    · subst h
      exact le_trans (ih (min x a) (min x a) (by simp)) (min_le_left x a)
    · rcases List.mem_cons.mp h with h' | h'
      · subst h'
        exact le_trans (ih (min v x) (min v x) (by simp)) (min_le_right v x)
      · exact ih (min v a) x (List.mem_cons_of_mem _ h')

theorem le_foldl_max (t : List ℚ) : ∀ (v : ℚ), ∀ x ∈ v :: t, x ≤ t.foldl max v := by
  induction t with
  | nil => intro v x hx; simp at hx; simp [hx]
  | cons a t ih =>
    intro v x hx
    rcases List.mem_cons.mp hx with h | h
    · subst h
      exact le_trans (le_max_left x a) (ih (max x a) (max x a) (by simp))
    · rcases List.mem_cons.mp h with h' | h'
      · subst h'
        exact le_trans (le_max_right v x) (ih (max v x) (max v x) (by simp))
      · exact ih (max v a) x (List.mem_cons_of_mem _ h')

theorem foldl_min_mem (t : List ℚ) : ∀ (v : ℚ), t.foldl min v ∈ v :: t := by
  induction t with
  | nil => intro v; simp
  | cons a t ih =>
    intro v
    have h := ih (min v a)
    rcases List.mem_cons.mp h with h' | h'
    · rcases min_choice v a with hm | hm <;> rw [List.foldl_cons, h', hm]
      · exact List.mem_cons_self v _
      · exact List.mem_cons_of_mem _ (List.mem_cons_self a t)
    · exact List.mem_cons_of_mem _ (List.mem_cons_of_mem _ h')

theorem colMin_le {vals : List ℚ} {mn : ℚ} (h : colMin vals = some mn) :
    ∀ x ∈ vals, mn ≤ x := by
  match vals with
  | [] => cases h
  | v :: t =>
    simp only [colMin, Option.some.injEq] at h
    exact h ▸ foldl_min_le t v

theorem le_colMax {vals : List ℚ} {mx : ℚ} (h : colMax vals = some mx) :
    ∀ x ∈ vals, x ≤ mx := by
  match vals with
  | [] => cases h
  | v :: t =>
    simp only [colMax, Option.some.injEq] at h
    exact h ▸ le_foldl_max t v

theorem colMin_mem {vals : List ℚ} {mn : ℚ} (h : colMin vals = some mn) : mn ∈ vals := by
  match vals with
  | [] => cases h
  | v :: t =>
    simp only [colMin, Option.some.injEq] at h
    exact h ▸ foldl_min_mem t v

theorem gtzOf_iff (vals : List ℚ) (hne : vals ≠ []) :
    gtzOf vals = true ↔ ∀ v ∈ vals, 0 < v := by
  match vals with
  | [] => exact absurd rfl hne
  | v :: t =>
    have hm : colMin (v :: t) = some (t.foldl min v) := rfl
    constructor
    · intro h x hx
      simp only [gtzOf, hm, decide_eq_true_eq] at h
      exact lt_of_lt_of_le h (colMin_le hm x hx)
    · intro h
      simp only [gtzOf, hm, decide_eq_true_eq]
      exact h _ (colMin_mem hm)

/-! ### Helper lemmas: scaling and normalisation -/

theorem mapM_option_eq_map {α β : Type} {f : α → Option β} {g : α → β} (l : List α)
    (h : ∀ a ∈ l, f a = some (g a)) : l.mapM f = some (l.map g) := by
  induction l with
  | nil => rfl
  | cons a t ih =>
    rw [List.mapM_cons, h a (List.mem_cons_self a t), ih fun x hx => h x (List.mem_cons_of_mem a hx)]
    rfl

theorem minMaxScale_eq_formula (vals : List ℚ) (w : ℚ) (hw : 0 < w) (hv : vals ≠ []) :
    minMaxScale vals w = some (claimScale vals w) := by
  match vals with
  | v :: t =>
    have hmn : colMin (v :: t) = some (t.foldl min v) := rfl
    have hmx : colMax (v :: t) = some (t.foldl max v) := rfl
    set mn := t.foldl min v with hmndef
    set mx := t.foldl max v with hmxdef
    by_cases hc : mx = mn
    · have hrange : mx - mn = 0 := sub_eq_zero_of_eq hc
      simp only [minMaxScale, if_pos hw, hmn, hmx, hrange, if_pos rfl, claimScale,
        Option.some.injEq, List.getD]
      refine List.map_congr_left fun x hx => ?_
      have h1 : mn ≤ x := colMin_le hmn x hx
      have h2 : x ≤ mx := le_colMax hmx x hx
      have hxmn : x = mn := le_antisymm (hc ▸ h2) h1
      simp [hmn, hmx, hc, hxmn]
    · have hrange : ¬ (mx - mn = 0) := fun h => hc (sub_eq_zero.mp h)
      simp only [minMaxScale, if_pos hw, hmn, hmx, if_neg hrange, claimScale,
        Option.some.injEq]
      refine List.map_congr_left fun x hx => ?_
      simp only [hmn, hmx, Option.getD_some, if_neg hc]
      field_simp

theorem normalise_var_eq (df : Df) (w : ℚ) (keys : List String) (hw : 0 < w)
    (hne : ∀ c ∈ df.cols, c.1 ∉ keys → c.2 ≠ ([] : List ℚ)) :
    normalise_var df w keys = some ⟨df.keys, df.cols.map fun c =>
      if c.1 ∈ keys then c else (c.1, claimScale c.2 w)⟩ := by
  have h : (df.cols.mapM fun c =>
      if c.1 ∈ keys then some c
      else (minMaxScale c.2 w).map fun v => (c.1, v)) =
      some (df.cols.map fun c => if c.1 ∈ keys then c else (c.1, claimScale c.2 w)) := by
    refine mapM_option_eq_map _ fun c hc => ?_
    by_cases hk : c.1 ∈ keys
    · simp [hk]
    · simp only [if_neg hk]
      rw [minMaxScale_eq_formula c.2 w hw (hne c hc hk)]
      rfl
  rw [normalise_var, h]
  rfl

theorem mapM_option_fst_eq {f : (String × List ℚ) → Option (String × List ℚ)}
    (hf : ∀ c c', f c = some c' → c'.1 = c.1) :
    ∀ {l l' : List (String × List ℚ)}, l.mapM f = some l' →
      l'.map Prod.fst = l.map Prod.fst := by
  intro l
  induction l with
  | nil =>
    intro l' h
    simp only [List.mapM_nil, Option.pure_def, Option.some.injEq] at h
    subst h; rfl
  | cons c t ih =>
    intro l' h
    rw [List.mapM_cons] at h
    cases hfc : f c with
    | none => rw [hfc] at h; cases h
    | some c' =>
      rw [hfc] at h
      cases hmt : t.mapM f with
      | none => rw [hmt] at h; cases h
      | some t' =>
        rw [hmt] at h
        simp only [Option.bind_eq_bind, Option.some_bind, Option.pure_def,
          Option.some.injEq] at h
        subst h
        simp only [List.map_cons, hf c c' hfc, ih hmt]

theorem normalise_var_shape {df : Df} {w : ℚ} {keys : List String} {df' : Df}
    (h : normalise_var df w keys = some df') :
    df'.keys = df.keys ∧ df'.cols.map Prod.fst = df.cols.map Prod.fst := by
  rw [normalise_var] at h
  cases hm : df.cols.mapM fun c =>
      if c.1 ∈ keys then some c
      else (minMaxScale c.2 w).map fun v => (c.1, v) with
  | none => rw [hm] at h; cases h
  | some cols' =>
    rw [hm] at h
    simp only [Option.map_some', Option.some.injEq] at h
    subst h
    refine ⟨rfl, ?_⟩
    refine mapM_option_fst_eq (fun c c' hc => ?_) hm
    by_cases hk : c.1 ∈ keys
    · simp only [if_pos hk, Option.some.injEq] at hc
      exact hc ▸ rfl
    · simp only [if_neg hk] at hc
      cases hs : minMaxScale c.2 w with
      | none => rw [hs] at hc; cases hc
      | some v =>
        rw [hs] at hc
        simp only [Option.map_some', Option.some.injEq] at hc
        exact hc ▸ rfl

/-! ### Helper lemmas: transform_var column structure -/

theorem setCol_chain (adds : List (String × List ℚ)) :
    ∀ (cols : List (String × List ℚ)),
      (∀ a ∈ adds, a.1 ∉ cols.map Prod.fst) → (adds.map Prod.fst).Nodup →
      adds.foldl (fun acc a => setCol acc a.1 a.2) cols = cols ++ adds := by
  induction adds with
  | nil => intro cols _ _; simp
  | cons a t ih =>
    intro cols h hnd
    simp only [List.map_cons, List.nodup_cons] at hnd
    rw [List.foldl_cons, setCol_of_not_mem cols a.1 a.2 (h a (List.mem_cons_self a t))]
    rw [ih (cols ++ [(a.1, a.2)]) ?_ hnd.2]
    · simp
    · intro b hb
      simp only [List.map_append, List.mem_append, List.map_cons, List.map_nil,
        List.mem_singleton]
      push_neg
      refine ⟨fun hc => h b (List.mem_cons_of_mem a hb) hc, fun hc => ?_⟩
      exact hnd.1 (hc ▸ List.mem_map.mpr ⟨b, hb, rfl⟩)

theorem transform_var_none (ops : NumOps) (df : Df) (feature : String)
    (hc : (gtzOf ((lookupCol df.cols feature).getD []) &&
        isConst ((lookupCol df.cols feature).getD [])) = true) :
    transform_var ops df feature = none := by
  simp only [Bool.and_eq_true] at hc
  simp [transform_var, hc.1, hc.2]

theorem transform_var_as_chain (ops : NumOps) (df : Df) (feature : String)
    (hnc : (gtzOf ((lookupCol df.cols feature).getD []) &&
        isConst ((lookupCol df.cols feature).getD [])) = false) :
    transform_var ops df feature =
      some (⟨df.keys, (varAdds ops feature ((lookupCol df.cols feature).getD [])
          (gtzOf ((lookupCol df.cols feature).getD []))).foldl
          (fun acc a => setCol acc a.1 a.2) df.cols⟩,
        gtzOf ((lookupCol df.cols feature).getD [])) := by
  cases hg : gtzOf ((lookupCol df.cols feature).getD [])
  · simp [transform_var, varAdds, hg]
  · rw [hg, Bool.true_and] at hnc
    simp [transform_var, varAdds, hg, hnc]

theorem varAdds_fst (ops : NumOps) (feature : String) (vals : List ℚ) (gtz : Bool) :
    (varAdds ops feature vals gtz).map Prod.fst =
      (["_yj", "_sqrr", "_log", "_squared"] ++
        (if gtz then ["_bc", "_recip_sqrr", "_recip"] else [])).map
        (fun s => feature ++ s) := by
  cases gtz <;> simp [varAdds]

theorem varAdds_fst_sub (ops : NumOps) (feature : String) (vals : List ℚ) (gtz : Bool) :
    ∀ a ∈ varAdds ops feature vals gtz, ∃ s ∈ varSuffixes, a.1 = feature ++ s := by
  intro a ha
  have h1 : a.1 ∈ (varAdds ops feature vals gtz).map Prod.fst :=
    List.mem_map.mpr ⟨a, ha, rfl⟩
  rw [varAdds_fst] at h1
  obtain ⟨s, hs, he⟩ := List.mem_map.mp h1
  refine ⟨s, ?_, he.symm⟩
  cases gtz
  · simp at hs
    rcases hs with rfl | rfl | rfl | rfl <;> decide
  · simp at hs
    rcases hs with rfl | rfl | rfl | rfl | rfl | rfl | rfl <;> decide

theorem varAdds_fst_nodup (ops : NumOps) (feature : String) (vals : List ℚ) (gtz : Bool) :
    ((varAdds ops feature vals gtz).map Prod.fst).Nodup := by
  rw [varAdds_fst]
  exact nodup_append_map feature _ (by cases gtz <;> decide)

theorem transform_var_some_inv (ops : NumOps) (df : Df) (feature : String)
    {r : Df × Bool} (h : transform_var ops df feature = some r) :
    r = (⟨df.keys, (varAdds ops feature ((lookupCol df.cols feature).getD [])
          (gtzOf ((lookupCol df.cols feature).getD []))).foldl
          (fun acc a => setCol acc a.1 a.2) df.cols⟩,
        gtzOf ((lookupCol df.cols feature).getD [])) := by
  cases hb : (gtzOf ((lookupCol df.cols feature).getD []) &&
      isConst ((lookupCol df.cols feature).getD []))
  · exact Option.some.inj (h.symm.trans (transform_var_as_chain ops df feature hb))
  · rw [transform_var_none ops df feature hb] at h
    cases h

theorem transform_var_cols (ops : NumOps) (df : Df) (feature : String)
    (hf : ∀ s ∈ varSuffixes, feature ++ s ∉ df.cols.map Prod.fst) :
    ∀ r, transform_var ops df feature = some r →
      r.1.cols = df.cols ++ varAdds ops feature ((lookupCol df.cols feature).getD [])
        (gtzOf ((lookupCol df.cols feature).getD [])) := by
  intro r h
  rw [transform_var_some_inv ops df feature h]
  exact setCol_chain _ df.cols
    (fun a ha => by
      obtain ⟨s, hs, he⟩ := varAdds_fst_sub ops feature _ _ a ha
      exact he ▸ hf s hs)
    (varAdds_fst_nodup ops feature _ _)

theorem transform_var_single (ops : NumOps) (keys : List (String × List String))
    (feature : String) (vals : List ℚ) (hnc : (gtzOf vals && isConst vals) = false) :
    transform_var ops ⟨keys, [(feature, vals)]⟩ feature =
      some (⟨keys, (feature, vals) :: varAdds ops feature vals (gtzOf vals)⟩, gtzOf vals) := by
  have hl : lookupCol [(feature, vals)] feature = some vals :=
    lookupCol_of_head (feature, vals) []
  have hf : ∀ s ∈ varSuffixes, feature ++ s ∉ ([(feature, vals)].map Prod.fst) := by
    intro s hs hmem
    simp only [List.map_cons, List.map_nil, List.mem_singleton] at hmem
    have hsne : s ≠ "" := by fin_cases hs <;> decide
    exact append_ne_self feature hsne hmem
  have h2 := transform_var_as_chain ops ⟨keys, [(feature, vals)]⟩ feature
    (by simpa only [hl, Option.getD_some] using hnc)
  have h1 := transform_var_cols ops ⟨keys, [(feature, vals)]⟩ feature hf _ h2
  simp only [hl, Option.getD_some] at h1 h2
  rw [h2, h1, List.singleton_append]

theorem transform_var_single_inv (ops : NumOps) (keys : List (String × List String))
    (feature : String) (vals : List ℚ) {td : Df} {g : Bool}
    (h : transform_var ops ⟨keys, [(feature, vals)]⟩ feature = some (td, g)) :
    td = ⟨keys, (feature, vals) :: varAdds ops feature vals (gtzOf vals)⟩ ∧
      g = gtzOf vals := by
  have hl : lookupCol [(feature, vals)] feature = some vals :=
    lookupCol_of_head (feature, vals) []
  cases hb : (gtzOf vals && isConst vals)
  · rw [transform_var_single ops keys feature vals hb] at h
    have h2 := Option.some.inj h
    exact ⟨(congrArg Prod.fst h2).symm, (congrArg Prod.snd h2).symm⟩
  · rw [transform_var_none ops ⟨keys, [(feature, vals)]⟩ feature
      (by simpa only [hl, Option.getD_some] using hb)] at h
    cases h

/-- The produced column names for a single-feature dataframe, as suffixes of
the feature name: identity, `_yj`, `_sqrr`, `_log`, `_squared`, then the
positivity-gated `_bc`, `_recip_sqrr`, `_recip`. -/
theorem transform_var_single_names (ops : NumOps) (feature : String) (vals : List ℚ) :
    (((feature, vals) :: varAdds ops feature vals (gtzOf vals)).map Prod.fst) =
      (["", "_yj", "_sqrr", "_log", "_squared"] ++
        (if gtzOf vals then ["_bc", "_recip_sqrr", "_recip"] else [])).map
        (fun s => feature ++ s) := by
  cases hg : gtzOf vals <;> simp [varAdds, hg, String.append_empty]

/-! ### Claim C3: normalisation formula -/

/-- C3, counterexample to the claim as stated: the claim quantifies over every
weight `w ≥ 0`, but at `w = 0` the MinMaxScaler feature_range check
`0 >= w` makes `_normalise_var` raise a ValueError instead of rescaling (the
claimed formula would return the all-zero column). -/
theorem C3_counterexample :
    ¬ (∀ (df : Df) (w : ℚ) (keys : List String), 0 ≤ w →
        ∃ df', normalise_var df w keys = some df') := by
  intro h
  obtain ⟨df', hd⟩ := h ⟨[], [("x", [1, 2])]⟩ 0 [] le_rfl
  rw [show normalise_var ⟨[], [("x", [1, 2])]⟩ 0 [] = none by decide] at hd
  cases hd

/-- C3 (amended to strictly positive weights and non-empty columns):
`_normalise_var` rescales every non-key column by the claimed formula
`scaled = (x - min) / (max - min) * w` — so the column minimum maps to 0 and
the column maximum maps to `w` — and a zero-variance column maps entirely to
0 (`claimScale` spells out exactly this formula) instead of the operation
failing. -/
theorem C3_normalise_formula (df : Df) (w : ℚ) (keys : List String) (hw : 0 < w)
    (hne : ∀ c ∈ df.cols, c.1 ∉ keys → c.2 ≠ ([] : List ℚ)) :
    normalise_var df w keys =
      some ⟨df.keys, df.cols.map fun c => if c.1 ∈ keys then c else (c.1, claimScale c.2 w)⟩ :=
  normalise_var_eq df w keys hw hne

/-- C3 witness: with weight 2, a non-key column [1, 3] rescales to [0, 2]
(minimum to 0, maximum to the weight) and a constant column [5, 5] maps to
[0, 0] rather than failing. -/
theorem C3_witness :
    normalise_var ⟨[("k", ["a", "b"])], [("x", [1, 3]), ("c", [5, 5])]⟩ 2 ["k"] =
      some ⟨[("k", ["a", "b"])], [("x", [0, 2]), ("c", [0, 0])]⟩ :=
  (C3_normalise_formula ⟨[("k", ["a", "b"])], [("x", [1, 3]), ("c", [5, 5])]⟩ 2 ["k"]
    (by norm_num) (by intro c hc hk; fin_cases hc <;> decide)).trans
    (by norm_num [claimScale, colMin, colMax, min_def, max_def]
        exact ⟨by decide, by decide⟩)

/-! ### Claim C5: produced transformation variants and the positivity flag -/

/-- C5, counterexample to the claim as stated: the claim quantifies over
every input column, but at the constant strictly positive column [3, 3]
`_transform_var` does not produce any result at all — `greater_than_zero`
holds, so model.py:223 calls `scipy.stats.boxcox`, which raises
`ValueError("Data must not be constant.")` — whereas the claim asserts that
the identity and the four unconditional variants are always produced with a
true flag. -/
theorem C5_counterexample :
    ¬ (∀ (ops : NumOps) (keys : List (String × List String)) (feature : String)
        (vals : List ℚ), vals ≠ [] →
        ∃ r, transform_var ops ⟨keys, [(feature, vals)]⟩ feature = some r ∧
          (r.2 = true ↔ ∀ v ∈ vals, 0 < v) ∧
          feature ∈ r.1.cols.map Prod.fst ∧
          feature ++ "_yj" ∈ r.1.cols.map Prod.fst) := by
  intro h
  obtain ⟨r, hr, -⟩ := h idOps [] "x" [3, 3] (by decide)
  rw [show transform_var idOps ⟨[], [("x", [3, 3])]⟩ "x" = none from by decide] at hr
  cases hr

/-- C5 (amended): for every non-empty input column — when the column is
constant with every value strictly positive, `_transform_var` fails
(`scipy.stats.boxcox` raises `ValueError("Data must not be constant.")`) and
produces nothing; in every other case it returns, always producing the
identity, Yeo-Johnson, square-root, log1p and squared columns, producing the
Box-Cox, reciprocal-square-root and reciprocal columns if and only if every
value is strictly greater than zero, with the returned `greater_than_zero`
flag true exactly in that case (so the three gated columns are absent, with a
false flag, whenever the column contains a zero or negative value). -/
theorem C5_transform_variants (ops : NumOps) (keys : List (String × List String))
    (feature : String) (vals : List ℚ) (hv : vals ≠ []) :
    ((∀ v ∈ vals, 0 < v) ∧ isConst vals = true →
      transform_var ops ⟨keys, [(feature, vals)]⟩ feature = none) ∧
    (∀ r, transform_var ops ⟨keys, [(feature, vals)]⟩ feature = some r →
      (r.2 = true ↔ ∀ v ∈ vals, 0 < v) ∧
      (feature ∈ r.1.cols.map Prod.fst ∧
       feature ++ "_yj" ∈ r.1.cols.map Prod.fst ∧
       feature ++ "_sqrr" ∈ r.1.cols.map Prod.fst ∧
       feature ++ "_log" ∈ r.1.cols.map Prod.fst ∧
       feature ++ "_squared" ∈ r.1.cols.map Prod.fst) ∧
      ((feature ++ "_bc" ∈ r.1.cols.map Prod.fst) ↔ ∀ v ∈ vals, 0 < v) ∧
      ((feature ++ "_recip_sqrr" ∈ r.1.cols.map Prod.fst) ↔ ∀ v ∈ vals, 0 < v) ∧
      ((feature ++ "_recip" ∈ r.1.cols.map Prod.fst) ↔ ∀ v ∈ vals, 0 < v)) := by
  have hl : lookupCol [(feature, vals)] feature = some vals :=
    lookupCol_of_head (feature, vals) []
  have hiff := gtzOf_iff vals hv
  constructor
  · rintro ⟨hpos, hconst⟩
    exact transform_var_none ops ⟨keys, [(feature, vals)]⟩ feature
      (by simp only [hl, Option.getD_some]; rw [hiff.mpr hpos, hconst]; rfl)
  intro r hr
  obtain ⟨htd, hg2⟩ := transform_var_single_inv ops keys feature vals hr
  have hcols : r.1.cols = (feature, vals) :: varAdds ops feature vals (gtzOf vals) := by
    rw [htd]
  have hn := transform_var_single_names ops feature vals
  refine ⟨by rw [hg2]; exact hiff, ⟨?_, ?_, ?_, ?_, ?_⟩, ?_, ?_, ?_⟩ <;> rw [hcols, hn]
  · exact List.mem_map.mpr ⟨"", by cases gtzOf vals <;> decide, String.append_empty feature⟩
  · exact (mem_append_map_iff feature "_yj" _).mpr (by cases gtzOf vals <;> decide)
  · exact (mem_append_map_iff feature "_sqrr" _).mpr (by cases gtzOf vals <;> decide)
  · exact (mem_append_map_iff feature "_log" _).mpr (by cases gtzOf vals <;> decide)
  · exact (mem_append_map_iff feature "_squared" _).mpr (by cases gtzOf vals <;> decide)
  all_goals rw [mem_append_map_iff]
  · cases hg : gtzOf vals
    · exact iff_of_false (by decide) (fun hall => by rw [hiff.mpr hall] at hg; cases hg)
    · exact iff_of_true (by decide) (hiff.mp hg)
  · cases hg : gtzOf vals
    · exact iff_of_false (by decide) (fun hall => by rw [hiff.mpr hall] at hg; cases hg)
    · exact iff_of_true (by decide) (hiff.mp hg)
  · cases hg : gtzOf vals
    · exact iff_of_false (by decide) (fun hall => by rw [hiff.mpr hall] at hg; cases hg)
    · exact iff_of_true (by decide) (hiff.mp hg)

/-- C5 witness: the amended statement instantiated at the constant strictly
positive column [3, 3] (the transform fails) and at the non-constant strictly
positive column [1, 2] (every variant and flag property of a returned
result). -/
theorem C5_witness :
    transform_var idOps ⟨[], [("x", [3, 3])]⟩ "x" = none ∧
    (∀ r, transform_var idOps ⟨[], [("x", [1, 2])]⟩ "x" = some r →
      (r.2 = true ↔ ∀ v ∈ [(1 : ℚ), 2], 0 < v) ∧
      ("x" ∈ r.1.cols.map Prod.fst ∧
       "x" ++ "_yj" ∈ r.1.cols.map Prod.fst ∧
       "x" ++ "_sqrr" ∈ r.1.cols.map Prod.fst ∧
       "x" ++ "_log" ∈ r.1.cols.map Prod.fst ∧
       "x" ++ "_squared" ∈ r.1.cols.map Prod.fst) ∧
      (("x" ++ "_bc" ∈ r.1.cols.map Prod.fst) ↔ ∀ v ∈ [(1 : ℚ), 2], 0 < v) ∧
      (("x" ++ "_recip_sqrr" ∈ r.1.cols.map Prod.fst) ↔ ∀ v ∈ [(1 : ℚ), 2], 0 < v) ∧
      (("x" ++ "_recip" ∈ r.1.cols.map Prod.fst) ↔ ∀ v ∈ [(1 : ℚ), 2], 0 < v)) :=
  ⟨(C5_transform_variants idOps [] "x" [3, 3] (by decide)).1 ⟨by decide, by decide⟩,
   (C5_transform_variants idOps [] "x" [1, 2] (by decide)).2⟩

/-! ### Claim C9: the stages mutate the dataframe passed to them -/

/-- C9, counterexample to the claim as stated: the three stage functions do
mutate the dataframe object passed to them (pandas column assignment is in
place, and each function returns the very object it received).  Already
`_transform_var` returns its argument extended with the variant columns, so
its post-call state differs from the input. -/
theorem C9_counterexample :
    ¬ ((∀ (ops : NumOps) (df : Df) (feature : String) (r : Df × Bool),
          transform_var ops df feature = some r → r.1 = df) ∧
       (∀ (df : Df) (w : ℚ) (keys : List String) (df' : Df),
          normalise_var df w keys = some df' → df' = df) ∧
       (∀ (pval : List ℚ → ℚ) (df : Df) (feature : String) (keys : List String) (df' : Df),
          get_best_gaussian_transformation pval df feature keys = some df' → df' = df)) := by
  rintro ⟨h1, -, -⟩
  have h2 := h1 idOps ⟨[], [("x", [1, 2])]⟩ "x"
    (⟨[], ("x", [1, 2]) :: varAdds idOps "x" [1, 2] (gtzOf [1, 2])⟩, gtzOf [1, 2])
    (transform_var_single idOps [] "x" [1, 2] (by decide))
  exact absurd (congrArg (fun d => d.cols.length) h2) (by decide)

/-- C9 (amended): the three stages mutate the dataframe passed to them and
return that same object: `_transform_var`, whenever it returns, appends the
variant columns to its argument (4 or 7 of them, `varAdds`), `_normalise_var` keeps the argument's
key columns and column names/order while overwriting the values in place,
and `_get_best_gaussian_transformation` writes the `_best` column onto its
argument.  Only the aggregated master table is protected, because
`transform_data` hands each stage a per-feature copy. -/
theorem C9_stages_mutate (ops : NumOps) (df : Df) (feature : String)
    (hf : ∀ s ∈ varSuffixes, feature ++ s ∉ df.cols.map Prod.fst)
    (w : ℚ) (keys : List String) (pval : List ℚ → ℚ) :
    (∀ r, transform_var ops df feature = some r →
      r.1.cols = df.cols ++ varAdds ops feature ((lookupCol df.cols feature).getD [])
        (gtzOf ((lookupCol df.cols feature).getD []))) ∧
    (∀ df', normalise_var df w keys = some df' →
      df'.keys = df.keys ∧ df'.cols.map Prod.fst = df.cols.map Prod.fst) ∧
    (∀ df', get_best_gaussian_transformation pval df feature keys = some df' →
      ∃ vals, df' = ⟨df.keys, setCol df.cols (feature ++ "_best") vals⟩) := by
  refine ⟨transform_var_cols ops df feature hf, fun df' h => normalise_var_shape h, ?_⟩
  intro df' h
  rw [get_best_gaussian_transformation] at h
  split at h
  · cases h
  · split at h
    · cases h
    · exact ⟨_, (Option.some.injEq _ _ ▸ h).symm⟩

/-- C9 witness: the amended statement at a concrete one-column dataframe. -/
theorem C9_witness :
    (∀ r, transform_var idOps ⟨[], [("x", [1, 2])]⟩ "x" = some r →
      r.1.cols =
        [("x", [1, 2])] ++ varAdds idOps "x" ((lookupCol [("x", [1, 2])] "x").getD [])
          (gtzOf ((lookupCol [("x", [1, 2])] "x").getD []))) ∧
    (∀ df', normalise_var ⟨[], [("x", [1, 2])]⟩ 1 [] = some df' →
      df'.keys = [] ∧ df'.cols.map Prod.fst = [("x", [1, 2])].map Prod.fst) ∧
    (∀ df', get_best_gaussian_transformation (fun _ => 1) ⟨[], [("x", [1, 2])]⟩ "x" [] =
        some df' →
      ∃ vals, df' = ⟨[], setCol [("x", [1, 2])] ("x" ++ "_best") vals⟩) :=
  C9_stages_mutate idOps ⟨[], [("x", [1, 2])]⟩ "x"
    (by intro s hs hm; fin_cases hs <;> simp_all)
    1 [] (fun _ => 1)

/-! ### Claim C4: first-maximum selection by the Gaussian selector -/

/-- Python `max(d, key=d.get)` characterised: the result is an entry of the
list, its value is maximal, and every entry strictly before it has a strictly
smaller value (first-in-insertion-order tie-breaking). -/
theorem pyMaxFst_spec (d : String × ℚ) :
    ∀ (ps : List (String × ℚ)) (p : String × ℚ),
      ∃ i, i < (p :: ps).length ∧ pyMaxFst p ps = (p :: ps).getD i d ∧
        (∀ j, j < (p :: ps).length → ((p :: ps).getD j d).2 ≤ (pyMaxFst p ps).2) ∧
        (∀ j, j < i → ((p :: ps).getD j d).2 < (pyMaxFst p ps).2) := by
  intro ps
  induction ps with
  | nil =>
    intro p
    refine ⟨0, by simp, by simp [pyMaxFst], ?_, by omega⟩
    intro j hj
    simp only [List.length_cons, List.length_nil] at hj
    have hj0 : j = 0 := by omega
    subst hj0
    simp [pyMaxFst]
  | cons x t ih =>
    intro p
    have hred : pyMaxFst p (x :: t) = pyMaxFst (if p.2 < x.2 then x else p) t := rfl
    by_cases hc : p.2 < x.2
    · rw [if_pos hc] at hred
      obtain ⟨i, hi, heq, hmax, hstrict⟩ := ih x
      refine ⟨i + 1, by simpa using hi, ?_, ?_, ?_⟩
      · rw [hred, List.getD_cons_succ]; exact heq
      · intro j hj
        rw [hred]
        match j with
        | 0 =>
          rw [List.getD_cons_zero]
          have hx : x.2 ≤ (pyMaxFst x t).2 := by
            have := hmax 0 (by simp)
            simpa using this
          exact le_of_lt (lt_of_lt_of_le hc hx)
        | j + 1 =>
          rw [List.getD_cons_succ]
          exact hmax j (by simpa using hj)
      · intro j hj
        rw [hred]
        match j with
        | 0 =>
          rw [List.getD_cons_zero]
          have hx : x.2 ≤ (pyMaxFst x t).2 := by
            have := hmax 0 (by simp)
            simpa using this
          exact lt_of_lt_of_le hc hx
        | j + 1 =>
          rw [List.getD_cons_succ]
          exact hstrict j (by omega)
    · rw [if_neg hc] at hred
      obtain ⟨i, hi, heq, hmax, hstrict⟩ := ih p
      have hple : x.2 ≤ p.2 := le_of_not_lt hc
      have hp : p.2 ≤ (pyMaxFst p t).2 := by simpa using hmax 0 (by simp)
      match i, hi, heq, hstrict with
      | 0, _, heq, _ =>
        refine ⟨0, by simp, by rw [hred]; simpa using heq, ?_, by omega⟩
        intro j hj
        rw [hred]
        match j with
        | 0 => simpa using hp
        | 1 =>
          simp only [List.getD_cons_succ, List.getD_cons_zero]
          exact le_trans hple hp
        | j + 2 =>
          simp only [List.getD_cons_succ]
          have hj' : j + 1 < (p :: t).length := by
            simp only [List.length_cons] at hj ⊢; omega
          simpa using hmax (j + 1) hj'
      | i + 1, hi, heq, hstrict =>
        have hi' : i + 2 < (p :: x :: t).length := by
          simp only [List.length_cons] at hi ⊢; omega
        refine ⟨i + 2, hi', ?_, ?_, ?_⟩
        · rw [hred]
          simp only [List.getD_cons_succ] at heq ⊢
          exact heq
        · intro j hj
          rw [hred]
          match j with
          | 0 => simpa using hp
          | 1 =>
            simp only [List.getD_cons_succ, List.getD_cons_zero]
            exact le_trans hple hp
          | j + 2 =>
            simp only [List.getD_cons_succ]
            have hj' : j + 1 < (p :: t).length := by
              simp only [List.length_cons] at hj ⊢; omega
            simpa using hmax (j + 1) hj'
        · intro j hj
          rw [hred]
          have hstrict0 : p.2 < (pyMaxFst p t).2 := by simpa using hstrict 0 (by omega)
          match j with
          | 0 => simpa using hstrict0
          | 1 =>
            simp only [List.getD_cons_succ, List.getD_cons_zero]
            exact lt_of_le_of_lt hple hstrict0
          | j + 2 =>
            simp only [List.getD_cons_succ]
            have hj' : j + 1 < i + 1 := by omega
            simpa using hstrict (j + 1) hj'

theorem transform_var_single_nodup (ops : NumOps) (feature : String) (vals : List ℚ) :
    ((((feature, vals) :: varAdds ops feature vals (gtzOf vals)).map Prod.fst)).Nodup := by
  rw [transform_var_single_names]
  exact nodup_append_map feature _ (by cases gtzOf vals <;> decide)

theorem best_fresh (ops : NumOps) (feature : String) (vals : List ℚ) :
    feature ++ "_best" ∉
      (((feature, vals) :: varAdds ops feature vals (gtzOf vals)).map Prod.fst) := by
  rw [transform_var_single_names]
  intro hmem
  have h2 := (mem_append_map_iff feature "_best" _).mp hmem
  revert h2
  cases gtzOf vals <;> decide

/-- Reduction of the selector once the candidate filter keeps everything, the
p-value list is a cons, and the looked-up best column is known. -/
theorem get_best_eq_of (pval : List ℚ → ℚ) (df : Df) (feature : String)
    (key_columns : List String)
    (hfilter : df.cols.filter (fun c => decide (c.1 ∉ key_columns)) = df.cols)
    {p : String × ℚ} {ps : List (String × ℚ)}
    (hmap : df.cols.map (fun c => (c.1, pval c.2)) = p :: ps)
    {v : List ℚ} (hlook : lookupCol df.cols (pyMaxFst p ps).1 = some v) :
    get_best_gaussian_transformation pval df feature key_columns =
      some ⟨df.keys, setCol df.cols (feature ++ "_best") v⟩ := by
  simp only [get_best_gaussian_transformation, hfilter, hmap, hlook]

/-- C4: for the single-feature pipeline dataframe — whose candidate columns
are, in insertion order: the identity column, `_yj`, `_sqrr`, `_log`,
`_squared`, then (when produced) `_bc`, `_recip_sqrr`, `_recip` — the
selector appends `<feature>_best` as a copy of the candidate column with the
maximal Shapiro-Wilk p-value, and on exact p-value ties the candidate
earliest in that insertion order is chosen (every earlier candidate has a
strictly smaller p-value). -/
theorem C4_best_selection (ops : NumOps) (keys0 : List (String × List String))
    (feature : String) (vals : List ℚ) (key_columns : List String) (pval : List ℚ → ℚ)
    (td : Df) (g : Bool)
    (htd : transform_var ops ⟨keys0, [(feature, vals)]⟩ feature = some (td, g))
    (hk : ∀ name ∈ td.cols.map Prod.fst, name ∉ key_columns) :
    ∃ i, i < td.cols.length ∧
      (∀ j, j < td.cols.length →
        pval ((td.cols.getD j ("", [])).2) ≤ pval ((td.cols.getD i ("", [])).2)) ∧
      (∀ j, j < i → pval ((td.cols.getD j ("", [])).2) < pval ((td.cols.getD i ("", [])).2)) ∧
      get_best_gaussian_transformation pval td feature key_columns =
        some ⟨td.keys, td.cols ++ [(feature ++ "_best", (td.cols.getD i ("", [])).2)]⟩ := by
  obtain ⟨htd1, -⟩ := transform_var_single_inv ops keys0 feature vals htd
  have hcols : td.cols = (feature, vals) :: varAdds ops feature vals (gtzOf vals) := by
    rw [htd1]
  have hnodup : (td.cols.map Prod.fst).Nodup := by
    rw [hcols]
    exact transform_var_single_nodup ops feature vals
  have hbestf : feature ++ "_best" ∉ td.cols.map Prod.fst := by
    rw [hcols]
    exact best_fresh ops feature vals
  have hfilter : td.cols.filter (fun c => decide (c.1 ∉ key_columns)) = td.cols :=
    List.filter_eq_self.mpr fun a ha =>
      decide_eq_true (hk a.1 (List.mem_map.mpr ⟨a, ha, rfl⟩))
  have hmap : td.cols.map (fun c => (c.1, pval c.2)) =
      (feature, pval vals) ::
        ((varAdds ops feature vals (gtzOf vals)).map fun c => (c.1, pval c.2)) := by
    rw [hcols]; rfl
  obtain ⟨i, hi, heq, hmax, hstrict⟩ :=
    pyMaxFst_spec ("", pval [])
      ((varAdds ops feature vals (gtzOf vals)).map fun c => (c.1, pval c.2))
      (feature, pval vals)
  have hpvs : (feature, pval vals) ::
      ((varAdds ops feature vals (gtzOf vals)).map fun c => (c.1, pval c.2)) =
      td.cols.map (fun c => (c.1, pval c.2)) := hmap.symm
  rw [hpvs] at hi heq hmax hstrict
  have hlen : (td.cols.map fun c => (c.1, pval c.2)).length = td.cols.length :=
    List.length_map _ _
  have hgd1 : ∀ n, ((td.cols.map fun c => (c.1, pval c.2)).getD n ("", pval [])).1 =
      (td.cols.getD n ("", [])).1 := fun n =>
    congrArg Prod.fst (List.getD_map td.cols ("", []) (fun c => (c.1, pval c.2)))
  have hgd2 : ∀ n, ((td.cols.map fun c => (c.1, pval c.2)).getD n ("", pval [])).2 =
      pval ((td.cols.getD n ("", [])).2) := fun n =>
    congrArg Prod.snd (List.getD_map td.cols ("", []) (fun c => (c.1, pval c.2)))
  have hiL : i < td.cols.length := hlen ▸ hi
  have hmemL : td.cols.getD i ("", []) ∈ td.cols := by
    rw [List.getD_eq_getElem td.cols ("", []) hiL]
    exact List.getElem_mem hiL
  have hlook0 : lookupCol td.cols ((td.cols.getD i ("", [])).1) =
      some ((td.cols.getD i ("", [])).2) :=
    lookupCol_mem_of_nodup hnodup hmemL
  refine ⟨i, hiL, ?_, ?_, ?_⟩
  · intro j hj
    have h1 := hmax j (hlen ▸ hj)
    rw [heq, hgd2 i, hgd2 j] at h1
    exact h1
  · intro j hj
    have h1 := hstrict j hj
    rw [heq, hgd2 i, hgd2 j] at h1
    exact h1
  · have hlook : lookupCol td.cols
        ((pyMaxFst (feature, pval vals)
          ((varAdds ops feature vals (gtzOf vals)).map fun c => (c.1, pval c.2))).1) =
        some ((td.cols.getD i ("", [])).2) := by
      rw [heq, hgd1 i]
      exact hlook0
    rw [get_best_eq_of pval td feature key_columns hfilter hmap hlook]
    rw [setCol_of_not_mem td.cols (feature ++ "_best") _ hbestf]

/-- C4 witness: the selection statement instantiated at the column [1, 2]
with the p-value function reading the first entry, with no key columns. -/
theorem C4_witness :
    ∃ i, i < (("x", [(1 : ℚ), 2]) :: varAdds idOps "x" [1, 2] (gtzOf [1, 2])).length ∧
      (∀ j, j < (("x", [(1 : ℚ), 2]) :: varAdds idOps "x" [1, 2] (gtzOf [1, 2])).length →
        (fun l => l.getD 0 0)
            (((("x", [(1 : ℚ), 2]) :: varAdds idOps "x" [1, 2] (gtzOf [1, 2])).getD j
              ("", [])).2) ≤
          (fun l => l.getD 0 0)
            (((("x", [(1 : ℚ), 2]) :: varAdds idOps "x" [1, 2] (gtzOf [1, 2])).getD i
              ("", [])).2)) ∧
      (∀ j, j < i →
        (fun l => l.getD 0 0)
            (((("x", [(1 : ℚ), 2]) :: varAdds idOps "x" [1, 2] (gtzOf [1, 2])).getD j
              ("", [])).2) <
          (fun l => l.getD 0 0)
            (((("x", [(1 : ℚ), 2]) :: varAdds idOps "x" [1, 2] (gtzOf [1, 2])).getD i
              ("", [])).2)) ∧
      get_best_gaussian_transformation (fun l => l.getD 0 0)
          ⟨[], ("x", [1, 2]) :: varAdds idOps "x" [1, 2] (gtzOf [1, 2])⟩ "x" [] =
        some ⟨[], (("x", [(1 : ℚ), 2]) :: varAdds idOps "x" [1, 2] (gtzOf [1, 2])) ++
          [("x" ++ "_best",
            ((("x", [(1 : ℚ), 2]) :: varAdds idOps "x" [1, 2] (gtzOf [1, 2])).getD i
              ("", [])).2)]⟩ :=
  C4_best_selection idOps [] "x" [1, 2] [] (fun l => l.getD 0 0)
    ⟨[], ("x", [1, 2]) :: varAdds idOps "x" [1, 2] (gtzOf [1, 2])⟩ (gtzOf [1, 2])
    (transform_var_single idOps [] "x" [1, 2] (by decide))
    (fun name _ h => absurd h (List.not_mem_nil name))

/-! ### Claims C6 and C10: the override path of transform_data -/

theorem selectKeysAnd_some {df : Df} {name : String} {v : List ℚ}
    (h : lookupCol df.cols name = some v) :
    selectKeysAnd df name = some ⟨df.keys, [(name, v)]⟩ := by
  simp [selectKeysAnd, h]

theorem selectKeysAnd_none {df : Df} {name : String}
    (h : lookupCol df.cols name = none) : selectKeysAnd df name = none := by
  simp [selectKeysAnd, h]

theorem get_best_shape {pval : List ℚ → ℚ} {df : Df} {feature : String}
    {key_columns : List String} {df' : Df}
    (h : get_best_gaussian_transformation pval df feature key_columns = some df') :
    ∃ v, df' = ⟨df.keys, setCol df.cols (feature ++ "_best") v⟩ := by
  rw [get_best_gaussian_transformation] at h
  split at h
  · cases h
  · split at h
    · cases h
    · exact ⟨_, (Option.some.injEq _ _ ▸ h).symm⟩

/-- The selector succeeds on a dataframe with unique column names none of
which are key columns, once there is at least one column. -/
theorem get_best_some (pval : List ℚ → ℚ) (df : Df) (feature : String)
    (key_columns : List String) (hnodup : (df.cols.map Prod.fst).Nodup)
    (hk : ∀ name ∈ df.cols.map Prod.fst, name ∉ key_columns)
    (c0 : String × List ℚ) (rest : List (String × List ℚ)) (hcols : df.cols = c0 :: rest) :
    ∃ v, get_best_gaussian_transformation pval df feature key_columns =
      some ⟨df.keys, setCol df.cols (feature ++ "_best") v⟩ := by
  have hfilter : df.cols.filter (fun c => decide (c.1 ∉ key_columns)) = df.cols :=
    List.filter_eq_self.mpr fun a ha =>
      decide_eq_true (hk a.1 (List.mem_map.mpr ⟨a, ha, rfl⟩))
  have hmap : df.cols.map (fun c => (c.1, pval c.2)) =
      (c0.1, pval c0.2) :: (rest.map fun c => (c.1, pval c.2)) := by
    rw [hcols]; rfl
  obtain ⟨i, hi, heq, -, -⟩ :=
    pyMaxFst_spec ("", pval []) (rest.map fun c => (c.1, pval c.2)) (c0.1, pval c0.2)
  have hpvs : (c0.1, pval c0.2) :: (rest.map fun c => (c.1, pval c.2)) =
      df.cols.map (fun c => (c.1, pval c.2)) := hmap.symm
  rw [hpvs] at hi heq
  have hiL : i < df.cols.length := by
    rw [← List.length_map df.cols fun c => (c.1, pval c.2)]
    exact hi
  have hgd1 : ((df.cols.map fun c => (c.1, pval c.2)).getD i ("", pval [])).1 =
      (df.cols.getD i ("", [])).1 :=
    congrArg Prod.fst (List.getD_map df.cols ("", []) (fun c => (c.1, pval c.2)))
  have hmemL : df.cols.getD i ("", []) ∈ df.cols := by
    rw [List.getD_eq_getElem df.cols ("", []) hiL]
    exact List.getElem_mem hiL
  have hlook : lookupCol df.cols
      ((pyMaxFst (c0.1, pval c0.2) (rest.map fun c => (c.1, pval c.2))).1) =
      some ((df.cols.getD i ("", [])).2) := by
    rw [heq, hgd1]
    exact lookupCol_mem_of_nodup hnodup hmemL
  exact ⟨_, get_best_eq_of pval df feature key_columns hfilter hmap hlook⟩

theorem transform_var_keys (ops : NumOps) (df : Df) (feature : String) :
    ∀ r, transform_var ops df feature = some r → r.1.keys = df.keys := by
  intro r h
  rw [transform_var_some_inv ops df feature h]

/-- C6: when the override map assigns variant `code` to a feature (and the
pipeline reaches the selection step with the post-normalisation dataframe
`tdN`), the column merged into the output is exactly the named variant column
of `tdN` — whose values never depend on the Shapiro-Wilk p-values — and when
that variant column was not produced, `transform_data` fails with a KeyError
instead of falling back to the best candidate. -/
theorem C6_override_selection (ops : NumOps) (pval : List ℚ → ℚ) (la_keys : List String)
    (dfAll acc : Df) (feature code : String) (weight : ℚ) (normalise : Bool)
    (ct : List (String × String)) (hct : customLookup ct feature = some code)
    (hcode : code ≠ "best")
    {dfVarVals : List ℚ} (hsel : lookupCol dfAll.cols feature = some dfVarVals)
    {tv : Df × Bool}
    (htv : transform_var ops ⟨dfAll.keys, [(feature, dfVarVals)]⟩ feature = some tv)
    {tdN : Df}
    (hnorm : (if normalise then normalise_var tv.1 weight la_keys else some tv.1) =
      some tdN)
    (hknk : ∀ name ∈ tdN.cols.map Prod.fst, name ∉ la_keys)
    (hkeys : acc.keys = dfAll.keys) :
    (∀ v, lookupCol tdN.cols (feature ++ "_" ++ code) = some v →
      processFeature ops pval la_keys dfAll acc feature weight normalise (some ct) =
        some ⟨acc.keys, acc.cols ++ [(feature ++ "_" ++ code, v)]⟩) ∧
    (lookupCol tdN.cols (feature ++ "_" ++ code) = none →
      processFeature ops pval la_keys dfAll acc feature weight normalise (some ct) = none) := by
  have hselS : selectKeysAnd dfAll feature =
      some ⟨dfAll.keys, [(feature, dfVarVals)]⟩ := selectKeysAnd_some hsel
  have hnames0 := transform_var_single_names ops feature dfVarVals
  have hnodup0 := transform_var_single_nodup ops feature dfVarVals
  obtain ⟨htv1, -⟩ := transform_var_single_inv ops dfAll.keys feature dfVarVals htv
  have htv1cols : tv.1.cols =
      (feature, dfVarVals) :: varAdds ops feature dfVarVals (gtzOf dfVarVals) := by
    rw [htv1]
  have htv1keys : tv.1.keys = dfAll.keys := by
    rw [htv1]
  have hshapeN : tdN.keys = dfAll.keys ∧
      tdN.cols.map Prod.fst =
        ((feature, dfVarVals) :: varAdds ops feature dfVarVals (gtzOf dfVarVals)).map
          Prod.fst := by
    cases normalise with
    | false =>
      rw [if_neg (by simp)] at hnorm
      have h3 := Option.some.inj hnorm
      rw [← h3, htv1keys, htv1cols]
      exact ⟨rfl, rfl⟩
    | true =>
      rw [if_pos rfl] at hnorm
      exact ⟨(normalise_var_shape hnorm).1.trans htv1keys,
        ((normalise_var_shape hnorm).2).trans (by rw [htv1cols])⟩
  have hkeysN : tdN.keys = dfAll.keys := hshapeN.1
  have hnodupN : (tdN.cols.map Prod.fst).Nodup := by rw [hshapeN.2]; exact hnodup0
  have hcons : ∃ c0 rest, tdN.cols = c0 :: rest := by
    cases hc : tdN.cols with
    | nil =>
      have h2 := hshapeN.2
      rw [hc, hnames0] at h2
      cases gtzOf dfVarVals <;> simp at h2
    | cons c0 rest => exact ⟨c0, rest, rfl⟩
  obtain ⟨c0, rest, hcolsN⟩ := hcons
  obtain ⟨bv, hgb⟩ := get_best_some pval tdN feature la_keys hnodupN hknk c0 rest hcolsN
  have hchosen : chosenColumnName (some ct) feature = feature ++ "_" ++ code := by
    simp [chosenColumnName, hct]
  have hne : feature ++ "_" ++ code ≠ feature ++ "_best" := by
    intro he
    rw [show ("_best" : String) = "_" ++ "best" by decide] at he
    rw [← String.append_assoc] at he
    exact hcode (string_append_right_inj (feature ++ "_") he)
  constructor
  · intro v hv
    rw [processFeature, hselS, Option.some_bind, htv, Option.some_bind, hnorm,
      Option.some_bind, hgb, Option.some_bind, hchosen]
    have hlook2 : lookupCol (setCol tdN.cols (feature ++ "_best") bv)
        (feature ++ "_" ++ code) = some v := by
      rw [lookupCol_setCol_ne tdN.cols (feature ++ "_best") (feature ++ "_" ++ code) bv hne]
      exact hv
    rw [@selectKeysAnd_some ⟨tdN.keys, setCol tdN.cols (feature ++ "_best") bv⟩ _ _ hlook2,
      Option.some_bind]
    rw [mergeOnKeys, if_pos (by rw [hkeys, hkeysN])]
  · intro hvnone
    rw [processFeature, hselS, Option.some_bind, htv, Option.some_bind, hnorm,
      Option.some_bind, hgb, Option.some_bind, hchosen]
    have hlook2 : lookupCol (setCol tdN.cols (feature ++ "_best") bv)
        (feature ++ "_" ++ code) = none := by
      rw [lookupCol_setCol_ne tdN.cols (feature ++ "_best") (feature ++ "_" ++ code) bv hne]
      exact hvnone
    rw [@selectKeysAnd_none ⟨tdN.keys, setCol tdN.cols (feature ++ "_best") bv⟩ _ hlook2,
      Option.none_bind]

/-- C6 witness: overriding feature "x" with code "log" (normalise off, a
constant p-value function) merges exactly the `x_log` column, ignoring the
p-values. -/
theorem C6_witness :
    processFeature idOps (fun _ => 1) ["k"] ⟨[("k", ["A", "B"])], [("x", [1, 2])]⟩
        ⟨[("k", ["A", "B"])], []⟩ "x" 1 false (some [("x", "log")]) =
      some ⟨[("k", ["A", "B"])], [("x" ++ "_" ++ "log", [1, 2])]⟩ :=
  ((@C6_override_selection idOps (fun _ => 1) ["k"] ⟨[("k", ["A", "B"])], [("x", [1, 2])]⟩
      ⟨[("k", ["A", "B"])], []⟩ "x" "log" 1 false [("x", "log")] (by decide) (by decide)
      [1, 2] (by decide)
      (⟨[("k", ["A", "B"])], ("x", [1, 2]) :: varAdds idOps "x" [1, 2] (gtzOf [1, 2])⟩,
        gtzOf [1, 2])
      (transform_var_single idOps [("k", ["A", "B"])] "x" [1, 2] (by decide))
      ⟨[("k", ["A", "B"])], ("x", [1, 2]) :: varAdds idOps "x" [1, 2] (gtzOf [1, 2])⟩ rfl
      (by decide) rfl).1 [1, 2] (by decide)).trans (by decide)

/-- C10: supplying the documented no-transformation override code `''` always
fails: the column it selects is named `<feature>_` (`f"{feature}_{''}"`), and
`_transform_var` never produces a column of that name — the untransformed
column is plainly `<feature>` — so the selection raises a KeyError whichever
path the per-feature pipeline takes. -/
theorem C10_empty_override (ops : NumOps) (pval : List ℚ → ℚ) (la_keys : List String)
    (dfAll acc : Df) (feature : String) (weight : ℚ) (normalise : Bool)
    (ct : List (String × String)) (hct : customLookup ct feature = some "") :
    processFeature ops pval la_keys dfAll acc feature weight normalise (some ct) = none := by
  rw [processFeature]
  cases hsel : selectKeysAnd dfAll feature with
  | none => rw [Option.none_bind]
  | some dfVar =>
    rw [Option.some_bind]
    obtain ⟨v, hdfVar⟩ : ∃ v, dfVar = ⟨dfAll.keys, [(feature, v)]⟩ := by
      rw [selectKeysAnd] at hsel
      split at hsel
      · cases hsel
      · exact ⟨_, (Option.some.inj hsel).symm⟩
    subst hdfVar
    cases htv : transform_var ops ⟨dfAll.keys, [(feature, v)]⟩ feature with
    | none => rw [Option.none_bind]
    | some tv =>
      rw [Option.some_bind]
      obtain ⟨htv1, -⟩ := transform_var_single_inv ops dfAll.keys feature v htv
      have htv1cols : tv.1.cols = (feature, v) :: varAdds ops feature v (gtzOf v) := by
        rw [htv1]
      cases hnorm : (if normalise then normalise_var tv.1 weight la_keys
          else some tv.1) with
      | none => rw [Option.none_bind]
      | some tdN =>
        rw [Option.some_bind]
        have hshapeN : tdN.cols.map Prod.fst =
            ((feature, v) :: varAdds ops feature v (gtzOf v)).map Prod.fst := by
          cases normalise with
          | false =>
            rw [if_neg (by simp)] at hnorm
            rw [← Option.some.inj hnorm, htv1cols]
          | true =>
            rw [if_pos rfl] at hnorm
            exact ((normalise_var_shape hnorm).2).trans (by rw [htv1cols])
        cases hgb : get_best_gaussian_transformation pval tdN feature la_keys with
        | none => rw [Option.none_bind]
        | some tdB =>
          rw [Option.some_bind]
          obtain ⟨bv, htdB⟩ := get_best_shape hgb
          subst htdB
          have hchosen : chosenColumnName (some ct) feature = feature ++ "_" := by
            simp [chosenColumnName, hct, String.append_empty]
          rw [hchosen]
          have hnot : feature ++ "_" ∉ tdN.cols.map Prod.fst := by
            rw [hshapeN, transform_var_single_names]
            intro hmem
            have h2 := (mem_append_map_iff feature "_" _).mp hmem
            revert h2
            cases gtzOf v <;> decide
          have hne2 : feature ++ "_" ≠ feature ++ "_best" := append_ne_of_ne feature (by decide)
          have hlookN : lookupCol (setCol tdN.cols (feature ++ "_best") bv)
              (feature ++ "_") = none := by
            rw [lookupCol_setCol_ne _ _ _ _ hne2]
            exact lookupCol_eq_none _ _ hnot
          rw [@selectKeysAnd_none ⟨tdN.keys, setCol tdN.cols (feature ++ "_best") bv⟩ _ hlookN,
            Option.none_bind]

/-- C10 witness: the empty override code at a concrete strictly positive
feature column. -/
theorem C10_witness :
    processFeature idOps (fun _ => 1) ["k"] ⟨[("k", ["A", "B"])], [("x", [1, 2])]⟩
      ⟨[("k", ["A", "B"])], []⟩ "x" 1 true (some [("x", "")]) = none :=
  C10_empty_override idOps (fun _ => 1) ["k"] ⟨[("k", ["A", "B"])], [("x", [1, 2])]⟩
    ⟨[("k", ["A", "B"])], []⟩ "x" 1 true [("x", "")] (by decide)

/-! ### Helper lemmas: the stable ascending sort -/

theorem insertByLt_perm {α : Type} (lt : α → α → Bool) (p : α) (l : List α) :
    (insertByLt lt p l).Perm (p :: l) := by
  induction l with
  | nil => exact List.Perm.refl _
  | cons q t ih =>
    rw [insertByLt]
    by_cases h : lt p q
    · rw [if_pos h]
    · rw [if_neg h]
      exact List.Perm.trans (List.Perm.cons q ih) (List.Perm.swap p q t)

theorem mem_insertByLt {α : Type} (lt : α → α → Bool) {p x : α} {l : List α} :
    x ∈ insertByLt lt p l ↔ x = p ∨ x ∈ l := by
  rw [(insertByLt_perm lt p l).mem_iff, List.mem_cons]

theorem sortByLt_perm {α : Type} (lt : α → α → Bool) (l : List α) :
    (sortByLt lt l).Perm l := by
  suffices h : ∀ (l acc : List α),
      (l.foldl (fun acc p => insertByLt lt p acc) acc).Perm (l ++ acc) by
    simpa using h l []
  intro l
  induction l with
  | nil => intro acc; simp [List.Perm.refl]
  | cons p t ih =>
    intro acc
    rw [List.foldl_cons]
    refine (ih (insertByLt lt p acc)).trans ?_
    exact (List.Perm.append_left t (insertByLt_perm lt p acc)).trans List.perm_middle

theorem insertByLt_pairwise {α : Type} {lt : α → α → Bool} {Le : α → α → Prop}
    (h1 : ∀ a b, lt a b = true → Le a b) (h2 : ∀ a b, lt a b = false → Le b a)
    (h3 : ∀ a b c, Le a b → Le b c → Le a c)
    (p : α) (l : List α) (hl : l.Pairwise Le) : (insertByLt lt p l).Pairwise Le := by
  induction l with
  | nil => simp [insertByLt]
  | cons q t ih =>
    rw [insertByLt]
    rcases List.pairwise_cons.mp hl with ⟨hq, ht⟩
    cases h : lt p q with
    | true =>
      rw [if_pos rfl]
      refine List.pairwise_cons.mpr ⟨?_, hl⟩
      intro x hx
      rcases List.mem_cons.mp hx with rfl | hx
      · exact h1 _ _ h
      · exact h3 _ _ _ (h1 _ _ h) (hq x hx)
    | false =>
      rw [if_neg (by decide)]
      refine List.pairwise_cons.mpr ⟨?_, ih ht⟩
      intro x hx
      rcases (mem_insertByLt lt).mp hx with rfl | hx3
      · exact h2 _ _ h
      · exact hq x hx3

theorem sortByLt_pairwise {α : Type} {lt : α → α → Bool} {Le : α → α → Prop}
    (h1 : ∀ a b, lt a b = true → Le a b) (h2 : ∀ a b, lt a b = false → Le b a)
    (h3 : ∀ a b c, Le a b → Le b c → Le a c)
    (l : List α) : (sortByLt lt l).Pairwise Le := by
  suffices h : ∀ (l acc : List α), acc.Pairwise Le →
      (l.foldl (fun acc p => insertByLt lt p acc) acc).Pairwise Le by
    exact h l [] (by simp)
  intro l
  induction l with
  | nil => intro acc hacc; simpa using hacc
  | cons p t ih =>
    intro acc hacc
    rw [List.foldl_cons]
    exact ih (insertByLt lt p acc) (insertByLt_pairwise h1 h2 h3 p acc hacc)

theorem insertPair_pairwise (p : Nat × ℚ) (l : List (Nat × ℚ))
    (hl : l.Pairwise pairLex) (hall : ∀ q ∈ l, q.1 < p.1) :
    (insertByLt valLt p l).Pairwise pairLex := by
  induction l with
  | nil => simp [insertByLt]
  | cons q t ih =>
    rw [insertByLt]
    rcases List.pairwise_cons.mp hl with ⟨hq, ht⟩
    cases h : valLt p q with
    | true =>
      rw [if_pos rfl]
      have hpq : p.2 < q.2 := of_decide_eq_true h
      refine List.pairwise_cons.mpr ⟨?_, hl⟩
      intro x hx
      rcases List.mem_cons.mp hx with rfl | hx
      · exact Or.inl hpq
      · rcases hq x hx with h' | ⟨heq, _⟩
        · exact Or.inl (lt_trans hpq h')
        · exact Or.inl (heq ▸ hpq)
    | false =>
      rw [if_neg (by decide)]
      have hqp : ¬ p.2 < q.2 := of_decide_eq_false h
      refine List.pairwise_cons.mpr
        ⟨?_, ih ht fun r hr => hall r (List.mem_cons_of_mem q hr)⟩
      intro x hx
      rcases (mem_insertByLt valLt).mp hx with rfl | hx3
      · rcases lt_or_eq_of_le (le_of_not_lt hqp) with h' | h'
        · exact Or.inl h'
        · exact Or.inr ⟨h', hall q (List.mem_cons_self q t)⟩
      · exact hq x hx3

theorem sortByLt_pairwise_pairLex (l : List (Nat × ℚ))
    (hidx : l.Pairwise fun a b => a.1 < b.1) :
    (sortByLt valLt l).Pairwise pairLex := by
  suffices h : ∀ (l acc : List (Nat × ℚ)), acc.Pairwise pairLex →
      (∀ q ∈ acc, ∀ p ∈ l, q.1 < p.1) → l.Pairwise (fun a b => a.1 < b.1) →
      (l.foldl (fun acc p => insertByLt valLt p acc) acc).Pairwise pairLex by
    exact h l [] (by simp) (by simp) hidx
  intro l
  induction l with
  | nil => intro acc h1 _ _; simpa using h1
  | cons p t ih =>
    intro acc h1 h2 h3
    rw [List.foldl_cons]
    rcases List.pairwise_cons.mp h3 with ⟨hp, ht⟩
    refine ih (insertByLt valLt p acc)
      (insertPair_pairwise p acc h1 fun q hq => h2 q hq p (List.mem_cons_self p t)) ?_ ht
    intro q hq r hr
    rcases (mem_insertByLt valLt).mp hq with rfl | hq3
    · exact hp r hr
    · exact h2 q hq3 r (List.mem_cons_of_mem p hr)

/-! ### Claims C7 and C1: the peer ranking -/

theorem sortByLt_length {α : Type} (lt : α → α → Bool) (l : List α) :
    (sortByLt lt l).length = l.length :=
  (sortByLt_perm lt l).length_eq

theorem pairsCol_length (m : List (List ℚ)) (j : Nat) :
    (pairsCol m j).length = m.length := by
  simp [pairsCol]

theorem peerRow_length (names : List String) (m : List (List ℚ)) (k j : Nat) :
    (peerRow names m k j).length = (min (k + 1) m.length - 1) + 1 := by
  simp [peerRow, sortByLt_length, pairsCol_length, Nat.add_comm]

/-- C7: with at least one LA and `k ≥ n`, `nsmallest(k+1, column)` returns
only `n` rows, so every peer row has `n` entries while the output frame
declares `k + 1` column labels, and the DataFrame construction at
model.py:332-335 raises a ValueError: the ranking fails. -/
theorem C7_k_too_large (names : List String) (m : List (List ℚ)) (k n : Nat)
    (hn : names.length = n) (hm : m.length = n) (h1 : 1 ≤ n) (hk : n ≤ k) :
    peersTable names m k = none := by
  rw [peersTable]
  refine if_neg ?_
  intro hall
  rw [List.all_eq_true] at hall
  have h0 : peerRow names m k 0 ∈ (List.range names.length).map (peerRow names m k) :=
    List.mem_map.mpr ⟨0, List.mem_range.mpr (by omega), rfl⟩
  have hlen := of_decide_eq_true (hall _ h0)
  rw [peerRow_length, hm, Nat.min_eq_right (by omega)] at hlen
  omega

/-- C7 witness: two LAs, `k = 2`. -/
theorem C7_witness : peersTable ["A", "B"] [[0, 1], [1, 0]] 2 = none :=
  C7_k_too_large ["A", "B"] [[0, 1], [1, 0]] 2 2 rfl rfl (by omega) (by omega)

theorem pairsCol_mem {m : List (List ℚ)} {j : Nat} {x : Nat × ℚ} :
    x ∈ pairsCol m j ↔ ∃ i, i < m.length ∧ x = (i, entry m i j) := by
  constructor
  · intro hx
    obtain ⟨i, hi, he⟩ := List.mem_map.mp hx
    exact ⟨i, List.mem_range.mp hi, he.symm⟩
  · rintro ⟨i, hi, rfl⟩
    exact List.mem_map.mpr ⟨i, List.mem_range.mpr hi, rfl⟩

theorem pairsCol_pairwise (m : List (List ℚ)) (j : Nat) :
    (pairsCol m j).Pairwise fun a b => a.1 < b.1 :=
  List.Pairwise.map _ (fun _ _ h => h) (List.pairwise_lt_range m.length)

theorem pairsCol_nodup (m : List (List ℚ)) (j : Nat) : (pairsCol m j).Nodup :=
  (pairsCol_pairwise m j).imp fun h he => absurd (he ▸ h) (lt_irrefl _)

/-- The stably sorted column starts with the LA's own entry `(j, 0)` when
every other distance in the column is strictly positive; the remaining
entries are exactly the other rows, in lexicographic (distance, row index)
order. -/
theorem ranked_structure (m : List (List ℚ)) (j n : Nat)
    (hm : m.length = n) (hj : j < n) (hdiag : entry m j j = 0)
    (hpos : ∀ i, i < n → i ≠ j → 0 < entry m i j) :
    ∃ rest, sortByLt valLt (pairsCol m j) = ((j, 0) : Nat × ℚ) :: rest ∧
      rest.Pairwise pairLex ∧ rest.Nodup ∧ ((j, 0) : Nat × ℚ) ∉ rest ∧
      (∀ x ∈ rest, ∃ i, i < n ∧ i ≠ j ∧ x = (i, entry m i j)) ∧
      (∀ i, i < n → i ≠ j → ((i, entry m i j) : Nat × ℚ) ∈ rest) ∧
      rest.length = n - 1 := by
  have hperm := sortByLt_perm valLt (pairsCol m j)
  have hlex := sortByLt_pairwise_pairLex (pairsCol m j) (pairsCol_pairwise m j)
  have hu_mem : ((j, 0) : Nat × ℚ) ∈ pairsCol m j := by
    rw [← hdiag]
    exact pairsCol_mem.mpr ⟨j, by omega, rfl⟩
  have hu_ranked : ((j, 0) : Nat × ℚ) ∈ sortByLt valLt (pairsCol m j) :=
    hperm.mem_iff.mpr hu_mem
  cases hr : sortByLt valLt (pairsCol m j) with
  | nil => rw [hr] at hu_ranked; cases hu_ranked
  | cons r0 rest =>
    rw [hr] at hu_ranked hlex hperm
    have hnodup_ranked : (r0 :: rest).Nodup :=
      (hperm.symm).nodup (pairsCol_nodup m j)
    rcases List.pairwise_cons.mp hlex with ⟨hhead, htail⟩
    have hr0 : r0 = ((j, 0) : Nat × ℚ) := by
      rcases List.mem_cons.mp hu_ranked with he | hin
      · exact he.symm
      · exfalso
        have hr0p : r0 ∈ pairsCol m j := hperm.mem_iff.mp (List.mem_cons_self r0 rest)
        obtain ⟨i, hi, hieq⟩ := pairsCol_mem.mp hr0p
        have hlx := hhead ((j, 0) : Nat × ℚ) hin
        by_cases hij : i = j
        · subst hij
          rw [hieq, hdiag] at hlx
          simp [pairLex] at hlx
        · have hpi : 0 < entry m i j := hpos i (hm ▸ hi) hij
          rw [hieq] at hlx
          simp only [pairLex] at hlx
          rcases hlx with h' | ⟨h', _⟩
          · exact absurd (lt_trans hpi h') (lt_irrefl _)
          · rw [h'] at hpi
            exact absurd hpi (lt_irrefl _)
    subst hr0
    have hnotin : ((j, 0) : Nat × ℚ) ∉ rest := (List.nodup_cons.mp hnodup_ranked).1
    refine ⟨rest, rfl, htail, (List.nodup_cons.mp hnodup_ranked).2, hnotin, ?_, ?_, ?_⟩
    · intro x hx
      have hxp : x ∈ pairsCol m j := hperm.mem_iff.mp (List.mem_cons_of_mem _ hx)
      obtain ⟨i, hi, hieq⟩ := pairsCol_mem.mp hxp
      refine ⟨i, hm ▸ hi, ?_, hieq⟩
      intro hij
      subst hij
      rw [hieq, hdiag] at hx
      exact hnotin hx
    · intro i hi hij
      have hp : ((i, entry m i j) : Nat × ℚ) ∈ pairsCol m j :=
        pairsCol_mem.mpr ⟨i, by omega, rfl⟩
      rcases List.mem_cons.mp (hperm.mem_iff.mpr hp) with he | hin
      · exact absurd (congrArg Prod.fst he) hij
      · exact hin
    · have := hperm.length_eq
      rw [pairsCol_length, hm] at this
      simp only [List.length_cons] at this
      omega

/-- C1 (amended with strictly positive off-diagonal distances): for every
distance matrix with zero diagonal and strictly positive distances between
distinct LAs, and every `1 ≤ k < n`, the ranking succeeds and each LA's peer
row is its own name followed by exactly `k` distinct other LAs; the first
peer attains the minimal distance to the LA among all other LAs, and every
earlier row with the same distance would have been taken instead (ties are
resolved by matrix row order: all rows before the chosen one are strictly
farther). -/
theorem C1_peer_ranking (names : List String) (m : List (List ℚ)) (k n : Nat)
    (hn : names.length = n) (hm : m.length = n) (hnd : names.Nodup)
    (hk1 : 1 ≤ k) (hkn : k < n)
    (hdiag : ∀ i, i < n → entry m i i = 0)
    (hpos : ∀ i, i < n → ∀ j, j < n → i ≠ j → 0 < entry m i j) :
    peersTable names m k = some ((List.range n).map (peerRow names m k)) ∧
    ∀ j, j < n → ∃ peers,
      peerRow names m k j = names.getD j "" :: peers ∧
      peers.length = k ∧ peers.Nodup ∧ names.getD j "" ∉ peers ∧
      (∀ p ∈ peers, p ∈ names) ∧
      ∃ i₀, i₀ < n ∧ i₀ ≠ j ∧ peers.head? = some (names.getD i₀ "") ∧
        (∀ i, i < n → i ≠ j → entry m i₀ j ≤ entry m i j) ∧
        (∀ i, i < i₀ → i ≠ j → entry m i₀ j < entry m i j) := by
  have hrowlen : ∀ j, (peerRow names m k j).length = k + 1 := by
    intro j
    rw [peerRow_length, hm, Nat.min_eq_left (by omega)]
    omega
  constructor
  · rw [peersTable, hn]
    exact if_pos (List.all_eq_true.mpr fun r hr => by
      obtain ⟨j, -, rfl⟩ := List.mem_map.mp hr
      exact decide_eq_true (hrowlen j))
  intro j hj
  obtain ⟨rest, hr, hlex, hnodupR, hnotin, hmemchar, hmemconv, hlen⟩ :=
    ranked_structure m j n hm hj (hdiag j hj) (fun i hi hij => hpos i hi j hj hij)
  have hpeers : peerRow names m k j =
      names.getD j "" :: (rest.take k).map fun p => names.getD p.1 "" := by
    rw [peerRow, hr, List.take_succ_cons]
    rfl
  have hgetDinj : ∀ i1 i2, i1 < n → i2 < n →
      names.getD i1 "" = names.getD i2 "" → i1 = i2 := by
    intro i1 i2 h1 h2 he
    rw [List.getD_eq_getElem names "" (by omega), List.getD_eq_getElem names "" (by omega)]
      at he
    exact (List.Nodup.getElem_inj_iff hnd).mp he
  refine ⟨(rest.take k).map fun p => names.getD p.1 "", hpeers, ?_, ?_, ?_, ?_, ?_⟩
  · rw [List.length_map, List.length_take]
    omega
  · refine List.Nodup.map_on ?_ ((List.take_sublist k rest).nodup hnodupR)
    intro x hx y hy hxy
    obtain ⟨i1, hi1, hij1, rfl⟩ := hmemchar x ((List.take_sublist k rest).subset hx)
    obtain ⟨i2, hi2, hij2, rfl⟩ := hmemchar y ((List.take_sublist k rest).subset hy)
    rw [hgetDinj i1 i2 hi1 hi2 hxy]
  · intro hmem
    obtain ⟨x, hx, hfx⟩ := List.mem_map.mp hmem
    obtain ⟨i1, hi1, hij1, rfl⟩ := hmemchar x ((List.take_sublist k rest).subset hx)
    exact hij1 (hgetDinj i1 j hi1 hj hfx)
  · intro p hp
    obtain ⟨x, hx, hfx⟩ := List.mem_map.mp hp
    obtain ⟨i1, hi1, hij1, rfl⟩ := hmemchar x ((List.take_sublist k rest).subset hx)
    rw [← hfx, List.getD_eq_getElem names "" (by omega)]
    exact List.getElem_mem _
  · cases hrest : rest with
    | nil => rw [hrest] at hlen; simp at hlen; omega
    | cons r1 rest' =>
      obtain ⟨i₀, hi₀, hi₀j, hr1⟩ := hmemchar r1 (hrest ▸ List.mem_cons_self r1 rest')
      refine ⟨i₀, hi₀, hi₀j, ?_, ?_, ?_⟩
      · obtain ⟨k', rfl⟩ : ∃ k', k = k' + 1 := ⟨k - 1, by omega⟩
        rw [List.take_succ_cons, List.map_cons, List.head?_cons, hr1]
      · intro i hi hij
        have hx := hmemconv i hi hij
        rw [hrest] at hx
        rcases List.mem_cons.mp hx with he | hin
        · rw [hr1] at he
          exact le_of_eq (congrArg Prod.snd he).symm
        · have hlx := (List.pairwise_cons.mp (hrest ▸ hlex)).1 _ hin
          rw [hr1] at hlx
          simp only [pairLex] at hlx
          rcases hlx with h' | ⟨h', -⟩
          · exact le_of_lt h'
          · exact le_of_eq h'
      · intro i hi hij
        have hx := hmemconv i (by omega) hij
        rw [hrest] at hx
        rcases List.mem_cons.mp hx with he | hin
        · rw [hr1] at he
          have h2 : i = i₀ := congrArg Prod.fst he
          omega
        · have hlx := (List.pairwise_cons.mp (hrest ▸ hlex)).1 _ hin
          rw [hr1] at hlx
          simp only [pairLex] at hlx
          rcases hlx with h' | ⟨-, h'⟩
          · exact h'
          · have h2 : i₀ < i := h'
            omega

/-- C1, counterexample to the claim as stated: on a genuine distance matrix
(zero diagonal, symmetric, non-negative) in which two LAs lie at distance
zero — here two LAs with identical feature rows — the LA's own identity does
appear in its own peer list.  For column "B" the two candidate rows tie at
distance 0, `nsmallest` keeps them in row order, `index[1:]` drops the other
LA "A" instead of "B" itself, and the produced peer row is ["B", "B"]. -/
theorem C1_counterexample :
    ¬ (∀ (names : List String) (m : List (List ℚ)) (k : Nat),
        (∀ i, i < names.length → entry m i i = 0) →
        (∀ i, i < names.length → ∀ j, j < names.length → entry m i j = entry m j i) →
        (∀ i, i < names.length → ∀ j, j < names.length → 0 ≤ entry m i j) →
        1 ≤ k → k < names.length →
        ∀ rows, peersTable names m k = some rows →
          ∀ j, j < names.length → names.getD j "" ∉ (rows.getD j []).drop 1) := by
  intro h
  have h2 : peersTable ["A", "B"] [[(0 : ℚ), 0], [0, 0]] 1 =
      some [["A", "B"], ["B", "B"]] := by decide
  exact h ["A", "B"] [[0, 0], [0, 0]] 1 (by decide) (by decide) (by decide)
    (by decide) (by decide) [["A", "B"], ["B", "B"]] h2 1 (by decide) (by decide)

/-- C1 witness: the amended ranking statement at a concrete 3×3 distance
matrix with k = 1. -/
theorem C1_witness :
    peersTable ["A", "B", "C"] [[0, 1, 2], [1, 0, 3], [2, 3, 0]] 1 =
      some ((List.range 3).map
        (peerRow ["A", "B", "C"] [[0, 1, 2], [1, 0, 3], [2, 3, 0]] 1)) ∧
    ∀ j, j < 3 → ∃ peers,
      peerRow ["A", "B", "C"] [[0, 1, 2], [1, 0, 3], [2, 3, 0]] 1 j =
        (["A", "B", "C"] : List String).getD j "" :: peers ∧
      peers.length = 1 ∧ peers.Nodup ∧
      (["A", "B", "C"] : List String).getD j "" ∉ peers ∧
      (∀ p ∈ peers, p ∈ (["A", "B", "C"] : List String)) ∧
      ∃ i₀, i₀ < 3 ∧ i₀ ≠ j ∧
        peers.head? = some ((["A", "B", "C"] : List String).getD i₀ "") ∧
        (∀ i, i < 3 → i ≠ j →
          entry [[0, 1, 2], [1, 0, 3], [2, 3, 0]] i₀ j ≤
            entry [[0, 1, 2], [1, 0, 3], [2, 3, 0]] i j) ∧
        (∀ i, i < i₀ → i ≠ j →
          entry [[0, 1, 2], [1, 0, 3], [2, 3, 0]] i₀ j <
            entry [[0, 1, 2], [1, 0, 3], [2, 3, 0]] i j) :=
  C1_peer_ranking ["A", "B", "C"] [[0, 1, 2], [1, 0, 3], [2, 3, 0]] 1 3 rfl rfl
    (by decide) (by decide) (by decide) (by decide) (by decide)

/-! ### Claim C2: the distance matrix and the long-form pairwise table -/

theorem getD_map_range {β : Type} (f : Nat → β) {n i : Nat} (d : β) (hi : i < n) :
    ((List.range n).map f).getD i d = f i := by
  rw [List.getD_eq_getElem _ _ (by simpa using hi), List.getElem_map, List.getElem_range]

theorem entry_distMatrixList (metric : List ℚ → List ℚ → ℚ) (vecs : List (List ℚ))
    {i j : Nat} (hi : i < vecs.length) (hj : j < vecs.length) :
    entry (distMatrixList metric vecs) i j = squareformPdist metric vecs i j := by
  rw [entry, distMatrixList, getD_map_range _ _ hi, getD_map_range _ _ hj]

theorem squareformPdist_symm (metric : List ℚ → List ℚ → ℚ) (vecs : List (List ℚ))
    (i j : Nat) : squareformPdist metric vecs i j = squareformPdist metric vecs j i := by
  rw [squareformPdist, squareformPdist]
  by_cases h : i = j
  · simp [h]
  · rw [if_neg h, if_neg (Ne.symm h), min_comm, max_comm]

theorem squareformPdist_diag (metric : List ℚ → List ℚ → ℚ) (vecs : List (List ℚ))
    (i : Nat) : squareformPdist metric vecs i i = 0 := by
  simp [squareformPdist]

theorem getD_inj_of_nodup {names : List String} (hnd : names.Nodup) {i1 i2 : Nat}
    (h1 : i1 < names.length) (h2 : i2 < names.length)
    (he : names.getD i1 "" = names.getD i2 "") : i1 = i2 := by
  rw [List.getD_eq_getElem names "" h1, List.getD_eq_getElem names "" h2] at he
  exact (List.Nodup.getElem_inj_iff hnd).mp he

theorem mem_stackRows {names : List String} {m : List (List ℚ)}
    {x : String × String × ℚ} :
    x ∈ stackRows names m ↔ ∃ i, i < names.length ∧ ∃ j, j < names.length ∧
      x = (names.getD i "", names.getD j "", entry m i j) := by
  rw [stackRows]
  constructor
  · intro hx
    obtain ⟨i, hi, hx2⟩ := List.mem_flatMap.mp hx
    obtain ⟨j, hj, he⟩ := List.mem_map.mp hx2
    exact ⟨i, List.mem_range.mp hi, j, List.mem_range.mp hj, he.symm⟩
  · rintro ⟨i, hi, j, hj, rfl⟩
    exact List.mem_flatMap.mpr ⟨i, List.mem_range.mpr hi,
      List.mem_map.mpr ⟨j, List.mem_range.mpr hj, rfl⟩⟩

theorem stackRows_nodup {names : List String} (m : List (List ℚ))
    (hnd : names.Nodup) : (stackRows names m).Nodup := by
  rw [stackRows, List.nodup_flatMap]
  constructor
  · intro i hi
    refine List.Nodup.map_on ?_ (List.nodup_range _)
    intro j1 h1 j2 h2 he
    have he2 : names.getD j1 "" = names.getD j2 "" :=
      congrArg (fun r : String × String × ℚ => r.2.1) he
    exact getD_inj_of_nodup hnd (List.mem_range.mp h1) (List.mem_range.mp h2) he2
  · rw [List.pairwise_iff_getElem]
    intro a b ha hb hab
    simp only [List.getElem_range]
    intro x hxa hxb
    obtain ⟨j1, hj1, he1⟩ := List.mem_map.mp hxa
    obtain ⟨j2, hj2, he2⟩ := List.mem_map.mp hxb
    have hfst : names.getD a "" = names.getD b "" :=
      congrArg (fun r : String × String × ℚ => r.1) (he1.trans he2.symm)
    have hab2 : a = b :=
      getD_inj_of_nodup hnd (by simpa using ha) (by simpa using hb) hfst
    omega

theorem filter_flatMap_comm {α β : Type} (l : List α) (f : α → List β) (p : β → Bool) :
    (l.flatMap f).filter p = l.flatMap fun a => (f a).filter p := by
  induction l with
  | nil => rfl
  | cons a t ih => simp only [List.flatMap_cons, List.filter_append, ih]

theorem length_filter_ne_range (n i : Nat) (hi : i < n) :
    ((List.range n).filter fun j => decide (¬ i = j)).length = n - 1 := by
  have h1 : ((List.range n).filter fun j => decide (¬ i = j)) =
      (List.range n).filter fun j => j != i := by
    refine List.filter_congr fun j _ => ?_
    by_cases h : i = j
    · subst h; simp
    · simp [h, Ne.symm h]
  rw [h1, ← List.Nodup.erase_eq_filter (List.nodup_range n) i,
    List.length_erase_of_mem (List.mem_range.mpr hi), List.length_range]

theorem pairwise_filtered_length {names : List String} (m : List (List ℚ)) {n : Nat}
    (hn : names.length = n) (hnd : names.Nodup) :
    ((stackRows names m).filter fun r => decide (r.1 ≠ r.2.1)).length = n * (n - 1) := by
  rw [stackRows, filter_flatMap_comm, List.length_flatMap]
  have hinner : ∀ i ∈ List.range names.length,
      ((List.length ∘ fun i => (((List.range names.length).map
        fun j => (names.getD i "", names.getD j "", entry m i j)).filter
          fun r => decide (r.1 ≠ r.2.1))) i) = n - 1 := by
    intro i hi
    have hi' : i < names.length := List.mem_range.mp hi
    simp only [Function.comp]
    rw [List.filter_map]
    rw [List.length_map]
    have hcong : List.filter ((fun r => decide (r.1 ≠ r.2.1)) ∘
        fun j => (names.getD i "", names.getD j "", entry m i j)) (List.range names.length) =
        List.filter (fun j => decide (¬ i = j)) (List.range names.length) := by
      refine List.filter_congr fun j hj => ?_
      simp only [Function.comp, decide_eq_decide]
      constructor
      · intro hne he
        exact hne (he ▸ rfl)
      · intro hne he
        exact hne (getD_inj_of_nodup hnd hi' (List.mem_range.mp hj) he)
    rw [hcong, length_filter_ne_range names.length i hi', hn]
  rw [List.map_congr_left hinner]
  have : List.map (fun _ => n - 1) (List.range names.length) =
      List.replicate names.length (n - 1) := by
    rw [List.eq_replicate_iff]
    refine ⟨by simp, fun b hb => ?_⟩
    obtain ⟨a, -, he⟩ := List.mem_map.mp hb
    exact he.symm
  rw [this, List.sum_replicate, hn, smul_eq_mul]

theorem rowLt_true_le {a b : String × String × ℚ} (h : rowLt a b = true) : rowLe a b := by
  rw [rowLt, Bool.or_eq_true, Bool.and_eq_true] at h
  rcases h with h | ⟨h1, h2⟩
  · exact Or.inl (of_decide_eq_true h)
  · exact Or.inr ⟨of_decide_eq_true h1, le_of_lt (of_decide_eq_true h2)⟩

theorem rowLt_false_ge {a b : String × String × ℚ} (h : rowLt a b = false) : rowLe b a := by
  rw [rowLt, Bool.or_eq_false_iff, Bool.and_eq_false_iff] at h
  obtain ⟨h1, h2⟩ := h
  have hnlt : ¬ a.1 < b.1 := of_decide_eq_false h1
  rcases lt_trichotomy a.1 b.1 with hlt | heq | hgt
  · exact absurd hlt hnlt
  · rcases h2 with h2 | h2
    · exact absurd heq (of_decide_eq_false h2)
    · exact Or.inr ⟨heq.symm, le_of_not_lt (of_decide_eq_false h2)⟩
  · exact Or.inl hgt

theorem rowLe_trans {a b c : String × String × ℚ} (h1 : rowLe a b) (h2 : rowLe b c) :
    rowLe a c := by
  rcases h1 with h1 | ⟨h1, h1'⟩ <;> rcases h2 with h2 | ⟨h2, h2'⟩
  · exact Or.inl (lt_trans h1 h2)
  · exact Or.inl (h2 ▸ h1)
  · exact Or.inl (h1 ▸ h2)
  · exact Or.inr ⟨h1.trans h2, le_trans h1' h2'⟩

theorem count_one_of_nodup {α : Type} [BEq α] [LawfulBEq α] {l : List α}
    (hnd : l.Nodup) {a : α} (ha : a ∈ l) : l.count a = 1 := by
  induction l with
  | nil => cases ha
  | cons x t ih =>
    rcases List.nodup_cons.mp hnd with ⟨hx, ht⟩
    rcases List.mem_cons.mp ha with rfl | hat
    · rw [List.count_cons_self]
      rw [List.count_eq_zero.mpr hx]
    · have hax : a ≠ x := fun he => hx (he ▸ hat)
      rw [List.count_cons_of_ne hax]
      exact ih ht hat

/-- C2: for every assembled feature table (any metric function, any row
vectors, distinct LA names), the matrix built by squareform of pdist is
symmetric and zero on the diagonal, and the long-form pairwise table has
exactly n·(n−1) rows, contains no self-pairs, contains each ordered pair of
distinct LAs exactly once, and is sorted by LA_1 ascending then distance
ascending. -/
theorem C2_pairwise_invariants (metric : List ℚ → List ℚ → ℚ) (names : List String)
    (vecs : List (List ℚ)) (n : Nat) (hn : names.length = n) (hv : vecs.length = n)
    (hnd : names.Nodup) :
    (∀ i, i < n → ∀ j, j < n →
      entry (distMatrixList metric vecs) i j = entry (distMatrixList metric vecs) j i) ∧
    (∀ i, i < n → entry (distMatrixList metric vecs) i i = 0) ∧
    (create_pairwise_distance_df names (distMatrixList metric vecs)).length = n * (n - 1) ∧
    (∀ r ∈ create_pairwise_distance_df names (distMatrixList metric vecs), r.1 ≠ r.2.1) ∧
    (∀ i, i < n → ∀ j, j < n → i ≠ j →
      (create_pairwise_distance_df names (distMatrixList metric vecs)).count
        (names.getD i "", names.getD j "", entry (distMatrixList metric vecs) i j) = 1) ∧
    (create_pairwise_distance_df names (distMatrixList metric vecs)).Pairwise rowLe := by
  have hperm : (create_pairwise_distance_df names (distMatrixList metric vecs)).Perm
      ((stackRows names (distMatrixList metric vecs)).filter
        fun r => decide (r.1 ≠ r.2.1)) := by
    simp only [create_pairwise_distance_df]
    exact sortByLt_perm rowLt _
  refine ⟨?_, ?_, ?_, ?_, ?_, ?_⟩
  · intro i hi j hj
    rw [entry_distMatrixList metric vecs (by omega) (by omega),
        entry_distMatrixList metric vecs (by omega) (by omega)]
    exact squareformPdist_symm metric vecs i j
  · intro i hi
    rw [entry_distMatrixList metric vecs (by omega) (by omega)]
    exact squareformPdist_diag metric vecs i
  · rw [hperm.length_eq]
    exact pairwise_filtered_length (distMatrixList metric vecs) hn hnd
  · intro r hr
    exact of_decide_eq_true (List.mem_filter.mp (hperm.mem_iff.mp hr)).2
  · intro i hi j hj hij
    have hmem : ((names.getD i "", names.getD j "",
        entry (distMatrixList metric vecs) i j) : String × String × ℚ) ∈
        (stackRows names (distMatrixList metric vecs)).filter
          fun r => decide (r.1 ≠ r.2.1) := by
      rw [List.mem_filter]
      refine ⟨mem_stackRows.mpr ⟨i, by omega, j, by omega, rfl⟩, decide_eq_true ?_⟩
      intro he
      exact hij (getD_inj_of_nodup hnd (by omega) (by omega) he)
    have hnodupT : (create_pairwise_distance_df names (distMatrixList metric vecs)).Nodup :=
      (hperm.symm).nodup (List.Nodup.filter _
        (stackRows_nodup (distMatrixList metric vecs) hnd))
    exact count_one_of_nodup hnodupT (hperm.mem_iff.mpr hmem)
  · simp only [create_pairwise_distance_df]
    exact @sortByLt_pairwise _ rowLt rowLe (fun a b h => rowLt_true_le h)
      (fun a b h => rowLt_false_ge h) (fun a b c h1 h2 => rowLe_trans h1 h2) _

/-- C2 witness: two LAs, one feature, the squared-euclidean stand-in metric
(the exact euclidean value is its square root, irrelevant to every conjunct). -/
theorem C2_witness :
    (∀ i, i < 2 → ∀ j, j < 2 →
      entry (distMatrixList euclidSq [[0], [1]]) i j =
        entry (distMatrixList euclidSq [[0], [1]]) j i) ∧
    (∀ i, i < 2 → entry (distMatrixList euclidSq [[0], [1]]) i i = 0) ∧
    (create_pairwise_distance_df ["B", "A"] (distMatrixList euclidSq [[0], [1]])).length =
      2 * (2 - 1) ∧
    (∀ r ∈ create_pairwise_distance_df ["B", "A"] (distMatrixList euclidSq [[0], [1]]),
      r.1 ≠ r.2.1) ∧
    (∀ i, i < 2 → ∀ j, j < 2 → i ≠ j →
      (create_pairwise_distance_df ["B", "A"] (distMatrixList euclidSq [[0], [1]])).count
        ((["B", "A"] : List String).getD i "", (["B", "A"] : List String).getD j "",
          entry (distMatrixList euclidSq [[0], [1]]) i j) = 1) ∧
    (create_pairwise_distance_df ["B", "A"]
      (distMatrixList euclidSq [[0], [1]])).Pairwise rowLe :=
  C2_pairwise_invariants euclidSq ["B", "A"] [[0], [1]] 2 rfl rfl (by decide)

/-! ### Claim C8: which output files exist when a run aborts -/

/-- C8, counterexample to the claim as stated: a run with `k` too large for
the number of LAs — a ConfigurationError of the spec's taxonomy — aborts only
inside the peer-table construction, after `transform_data` has already
written `features.csv` (model.py:116-117) and `calculate_distance` has
already written `distances.csv` (model.py:319-320).  The failure therefore
does not surface before partial output exists. -/
theorem C8_counterexample :
    ¬ (∀ (ops : NumOps) (pval : List ℚ → ℚ) (metric : List ℚ → List ℚ → ℚ)
        (la_keys : List String) (la_name : String) (dfAll : Df)
        (features : List (String × ℚ)) (normalise : Bool)
        (customT : Option (List (String × String))) (k : Nat),
        (runPipeline ops pval metric la_keys la_name dfAll features normalise customT k).2 =
          false →
        (runPipeline ops pval metric la_keys la_name dfAll features normalise customT k).1 =
          []) := by
  intro h
  have h2 := h idOps (fun _ => 1) (fun _ _ => 1) ["CD", "NM"] "NM"
    ⟨[("CD", ["a", "b"]), ("NM", ["A", "B"])], [("x", [1, 2])]⟩ [("x", 1)] true none 5
  have h3 : runPipeline idOps (fun _ => 1) (fun _ _ => 1) ["CD", "NM"] "NM"
      ⟨[("CD", ["a", "b"]), ("NM", ["A", "B"])], [("x", [1, 2])]⟩ [("x", 1)] true none 5 =
      (["features.csv", "distances.csv"], false) := by decide
  rw [h3] at h2
  exact absurd (h2 rfl) (by decide)

/-- C8 (amended): failures inside the transform stage (schema errors,
override KeyErrors, normalisation errors) do surface before any output file
is written; but the k-too-large ranking failure aborts only after
`features.csv` and `distances.csv` are written.  On any failed run the files
written are either none at all or exactly those two — `peers.csv` (and
`example_peers.csv`) is never written by a failed run. -/
theorem C8_failure_files (ops : NumOps) (pval : List ℚ → ℚ)
    (metric : List ℚ → List ℚ → ℚ) (la_keys : List String) (la_name : String)
    (dfAll : Df) (features : List (String × ℚ)) (normalise : Bool)
    (customT : Option (List (String × String))) (k : Nat) :
    (transformStage ops pval la_keys dfAll features normalise customT = none →
      runPipeline ops pval metric la_keys la_name dfAll features normalise customT k =
        ([], false)) ∧
    ((runPipeline ops pval metric la_keys la_name dfAll features normalise customT k).2 =
        false →
      ((runPipeline ops pval metric la_keys la_name dfAll features normalise customT k).1 =
          [] ∨
        (runPipeline ops pval metric la_keys la_name dfAll features normalise customT k).1 =
          ["features.csv", "distances.csv"]) ∧
      "peers.csv" ∉
        (runPipeline ops pval metric la_keys la_name dfAll features normalise customT k).1) := by
  cases hts : transformStage ops pval la_keys dfAll features normalise customT with
  | none =>
    have hrun : runPipeline ops pval metric la_keys la_name dfAll features normalise
        customT k = ([], false) := by
      simp only [runPipeline, hts]
    exact ⟨fun _ => hrun, fun _ => by rw [hrun]; exact ⟨Or.inl rfl, by decide⟩⟩
  | some out =>
    cases hpt : peersTable (laNames out la_name)
        (distMatrixList metric
          ((List.range (laNames out la_name).length).map (rowVec out))) k with
    | none =>
      have hrun : runPipeline ops pval metric la_keys la_name dfAll features normalise
          customT k = (["features.csv", "distances.csv"], false) := by
        simp only [runPipeline, hts, hpt]
      refine ⟨fun ht => ?_, fun _ => by rw [hrun]; exact ⟨Or.inr rfl, by decide⟩⟩
      exact Option.noConfusion ht
    | some tbl =>
      have hrun : runPipeline ops pval metric la_keys la_name dfAll features normalise
          customT k =
          (["features.csv", "distances.csv", "peers.csv", "example_peers.csv"], true) := by
        simp only [runPipeline, hts, hpt]
      refine ⟨fun ht => ?_, fun hf => ?_⟩
      · exact Option.noConfusion ht
      · rw [hrun] at hf
        cases hf

/-- C8 witness for the amended statement: the concrete k-too-large run of the
counterexample, landing in the features+distances case with no peers.csv. -/
theorem C8_witness :
    ((runPipeline idOps (fun _ => 1) (fun _ _ => 1) ["CD", "NM"] "NM"
        ⟨[("CD", ["a", "b"]), ("NM", ["A", "B"])], [("x", [1, 2])]⟩ [("x", 1)] true none 5).1 =
        [] ∨
      (runPipeline idOps (fun _ => 1) (fun _ _ => 1) ["CD", "NM"] "NM"
        ⟨[("CD", ["a", "b"]), ("NM", ["A", "B"])], [("x", [1, 2])]⟩ [("x", 1)] true none 5).1 =
        ["features.csv", "distances.csv"]) ∧
    "peers.csv" ∉
      (runPipeline idOps (fun _ => 1) (fun _ _ => 1) ["CD", "NM"] "NM"
        ⟨[("CD", ["a", "b"]), ("NM", ["A", "B"])], [("x", [1, 2])]⟩ [("x", 1)] true none 5).1 :=
  (C8_failure_files idOps (fun _ => 1) (fun _ _ => 1) ["CD", "NM"] "NM"
    ⟨[("CD", ["a", "b"]), ("NM", ["A", "B"])], [("x", [1, 2])]⟩ [("x", 1)] true none 5).2
    (by decide)

end PeerGroups
